import Mathlib

/-!
Verification of the DriftDetector repository (drift_detector/get_drift.py,
drift_detector/get_state.py, drift_detector/utils.py) against its
natural-language specification.  The Python functions are shallowly embedded
as executable Lean definitions: the filesystem is explicit state threaded
through the functions, Python exceptions are `Except` values, and the
external collaborators (the cartography analyzer, the I/O layer that can
fail, PocketBase credentials) are oracles in an `Env` record.
-/

namespace DriftDetector

/-! ## Strings as Python compares them

Python compares `str` values lexicographically by Unicode code point;
`Char.val` is exactly that code point.  The built-in `String` order of Lean
is the same relation, but its implementation does not reduce in the kernel,
so the comparison is defined here directly on the character lists. -/

/-- Lexicographic strict comparison of character lists by code point, which
is how Python compares two `str` values. -/
def charsLt : List Char → List Char → Bool
  | [], [] => false
  | [], _ :: _ => true
  | _ :: _, [] => false
  | a :: as, b :: bs =>
    if a.val.toNat < b.val.toNat then true
    else if b.val.toNat < a.val.toNat then false
    else charsLt as bs

/-- Python `a <= b` on strings (file names). -/
def nameLe (a b : String) : Bool := !(charsLt b.data a.data)

/-! ## Insertion sort

Python `list.sort()` is a stable ascending sort; all lists sorted by the
pipeline have pairwise-distinct keys, so stability is irrelevant and a plain
insertion sort by the same comparison models it. -/

section SortBy

variable {α : Type} (le : α → α → Bool)

/-- Insert `x` into `l` in front of the first element it compares `le` to. -/
def insSorted (x : α) : List α → List α
  | [] => [x]
  | y :: ys => if le x y then x :: y :: ys else y :: insSorted x ys

/-- Sort a list by the Boolean comparison `le`. -/
def sortByB (l : List α) : List α := l.foldr (insSorted le) []

end SortBy

/-! ## `utils.is_timestamp_file`

The source tests `re.match(r"^(\d+\.){7,8}\d+(\.\w+)?$", file_name)`.  The
matcher below mirrors that pattern operationally: the counted repetition
tries 8 and then 7 copies of `\d+\.`, and each greedy `\d+`/`\w+` run loses
no matches because a digit (resp. word character) can never stand where the
following literal `.` or the anchor is required.  Python `$` outside
MULTILINE mode also matches just before one final newline.  `\d` and `\w`
are modelled at their ASCII meaning (every name in the repository is
ASCII). -/

/-- Python `\d` on an ASCII name. -/
def isDigitC (c : Char) : Bool := c.isDigit

/-- Python `\w` on an ASCII name: letter, digit or underscore. -/
def isWordC (c : Char) : Bool := c.isAlphanum || c == '_'

/-- Consume a nonempty maximal run of characters satisfying `p` (a greedy
`p+`); `none` when the first character already fails `p`. -/
def plusRun (p : Char → Bool) : List Char → Option (List Char)
  | [] => none
  | c :: cs => if p c then some (cs.dropWhile p) else none

/-- One `\d+\.` repetition of the timestamp pattern. -/
def groupDot (l : List Char) : Option (List Char) :=
  match plusRun isDigitC l with
  | none => none
  | some r =>
    match r with
    | [] => none
    | c :: r2 => if c = '.' then some r2 else none

/-- Iterates `n` repetitions of `\d+\.`. -/
def groupDots : Nat → List Char → Option (List Char)
  | 0, l => some l
  | n + 1, l =>
    match groupDot l with
    | none => none
    | some r => groupDots n r

/-- Python end anchor `$` outside MULTILINE mode: the end of the string, or
the position just before one final newline. -/
def atLineEnd (l : List Char) : Bool := l.isEmpty || l == ['\n']

/-- The tail `\d+(\.\w+)?$` of the timestamp pattern. -/
def tsTail (l : List Char) : Bool :=
  match plusRun isDigitC l with
  | none => false
  | some r =>
    atLineEnd r ||
      match r with
      | [] => false
      | c :: r2 =>
        if c = '.' then
          match plusRun isWordC r2 with
          | none => false
          | some r3 => atLineEnd r3
        else false

/-- Embeds `utils.is_timestamp_file`:
`bool(re.match(r"^(\d+\.){7,8}\d+(\.\w+)?$", file_name))`. -/
def is_timestamp_file (name : String) : Bool :=
  (match groupDots 8 name.data with
   | some r => tsTail r
   | none => false) ||
  (match groupDots 7 name.data with
   | some r => tsTail r
   | none => false)

/-! ## Numeric comparison of snapshot names, from the spec

Used only to compare the source behaviour against the ordering the spec
mandates. -/

/-- Python `str.split(".")` on a character list. -/
def splitDots : List Char → List (List Char)
  | [] => [[]]
  | c :: cs =>
    if c == '.' then [] :: splitDots cs
    else
      match splitDots cs with
      | [] => [[c]]
      | g :: gs => (c :: g) :: gs

/-- Decimal value of one digit group. -/
def groupVal (g : List Char) : Nat :=
  g.foldl (fun n c => 10 * n + (c.val.toNat - 48)) 0

/-- Lexicographic comparison of number sequences. -/
def natSeqLt : List Nat → List Nat → Bool
  | [], [] => false
  | [], _ :: _ => true
  | _ :: _, [] => false
  | a :: as, b :: bs => if a < b then true else if b < a then false else natSeqLt as bs

/-- Modelled from the spec: `FilenamePolicy.compare` — "numeric,
component-wise comparison of the digit groups": name `a` orders before name
`b` exactly when at the first differing dot-group the group of `a` has the
smaller integer value. -/
def specNumericLt (a b : String) : Bool :=
  natSeqLt ((splitDots a.data).map groupVal) ((splitDots b.data).map groupVal)

/-- Groups interleaved with dots: the inverse of splitting a name at its
dots. -/
def joinGroups : List (List Char) → List Char
  | [] => []
  | [g] => g
  | g :: gs2 => g ++ '.' :: joinGroups gs2

/-- The characters an optional extension contributes to a name. -/
def extPart : Option (List Char) → List Char
  | some e => '.' :: e
  | none => []

/-- The characters the tolerated final newline contributes to a name. -/
def nlPart (nl : Bool) : List Char := if nl then ['\n'] else []

/-- Modelled from the spec: the accepted snapshot-name shape — "8–9
dot-separated groups of digits, optionally followed by a dot-extension" —
made precise over characters: 8 or 9 nonempty digit groups, an optional
nonempty extension of word characters, and the one trailing newline that
the end anchor of the source pattern tolerates. -/
def timestampShape (l : List Char) : Prop :=
  ∃ (gs : List (List Char)) (ext : Option (List Char)) (nl : Bool),
    (gs.length = 8 ∨ gs.length = 9) ∧
    (∀ g ∈ gs, g ≠ [] ∧ g.all isDigitC = true) ∧
    (∀ e, ext = some e → e ≠ [] ∧ e.all isWordC = true) ∧
    l = joinGroups gs ++ extPart ext ++ nlPart nl

/-! ## Directories and Python dicts as association lists -/

/-- Look a key up in a Python `dict`, or a file name up in a directory
listing. -/
def lookupA {α : Type} : List (String × α) → String → Option α
  | [], _ => none
  | p :: rest, k => if p.1 = k then some p.2 else lookupA rest k

/-- Bind a key in a Python `dict` (overwrite in place, append when new), or
write a file into a directory (overwriting a same-named file). -/
def updateA {α : Type} : List (String × α) → String → α → List (String × α)
  | [], k, v => [(k, v)]
  | p :: rest, k, v => if p.1 = k then (k, v) :: rest else p :: updateA rest k v

/-- Remove a name from a directory listing (the source side of a
`shutil.move`). -/
def removeA {α : Type} : List (String × α) → String → List (String × α)
  | [], _ => []
  | p :: rest, k => if p.1 = k then removeA rest k else p :: removeA rest k

/-- The names of a listing. -/
def nsOf {α : Type} (l : List (String × α)) : List String := l.map (·.1)

/-! ## The filesystem model

Only the structure the pipeline touches is modelled: the two top-level
collection directories, their immediate subdirectories (the targets), and
the files inside a target (plus the `drift_archive` retention folder on the
archive side).  Every loop in the source filters `os.path.isfile`, so plain
files and subdirectories are kept apart by construction. -/

/-- A file: whether its creation time falls within the 60-second recency
window of `find_new_drift_file`, and its content — `some` is a payload that
parses as JSON, `none` is a file whose parse raises `JSONDecodeError`. -/
structure FileInfo where
  recent : Bool
  content : Option String
deriving Repr, DecidableEq

/-- A directory listing: file name to file. -/
abbrev Listing := List (String × FileInfo)

/-- A target subdirectory of `drift-detect`. -/
structure TargetDir where
  files : Listing
  subdirNames : List String
deriving Repr, DecidableEq

/-- A target subdirectory of `drift-detect-archive`, with its
`drift_archive` retention folder. -/
structure ArchDir where
  files : Listing
  hasDriftArchive : Bool
  driftArchiveFiles : Listing
deriving Repr, DecidableEq

/-- An entry of the `drift-detect` listing: a target directory, or a stray
plain file (which fails the `os.path.isdir` filter). -/
inductive DDEntry where
  | dir (d : TargetDir)
  | stray
deriving Repr, DecidableEq

/-- An entry of the `drift-detect-archive` listing. -/
inductive ArchEntry where
  | dir (d : ArchDir)
  | stray
deriving Repr, DecidableEq

/-- The filesystem under the base path. -/
structure BaseFS where
  hasDriftDetect : Bool
  driftDetect : List (String × DDEntry)
  hasDriftDetectArchive : Bool
  archive : List (String × ArchEntry)
deriving Repr, DecidableEq

/-- The Python exceptions the pipeline can raise. -/
inductive Err where
  | fileNotFound (msg : String)
  | ioError (msg : String)
deriving Repr, DecidableEq

/-- The external world: which `shutil` copy/move source paths fail with
`IOError`, the exit status of a cartography invocation (by its argument
vector), the files the analyzer writes into the working directory of a
target, the clock, and the PocketBase credentials. -/
structure Env where
  ioFail : String → Bool
  analyzerOk : List String → Bool
  analyzerFiles : String → Listing
  now : String
  hasPocketbaseCreds : Bool

/-- A value of the consolidated report: a per-target drift record, or the
reserved metadata entry. -/
inductive RVal where
  | drift (j : String)
  | meta (generated_at : String) (base_path : String)
      (subfolders_processed : Nat) (subfolders_with_drift : Nat)
deriving Repr, DecidableEq

/-- The consolidated report, `consolidated_drift_data` in the source. -/
abbrev Report := List (String × RVal)

/-- Run state: the filesystem plus an instrumentation trace of the analyzer
invocations `(target name, argument vector)`. -/
structure St where
  fs : BaseFS
  invoked : List (String × List String)
deriving Repr, DecidableEq

/-- Models `os.path.join` for the relative components the pipeline joins. -/
def pathJoin (a b : String) : String := a ++ "/" ++ b

/-! ## `get_drift.py` -/

/-- Embeds `get_drift.check_drift_detect_folder`: raises `FileNotFoundError` when
the `drift-detect` directory is absent. -/
def check_drift_detect_folder (basePath : String) (fs : BaseFS) : Except Err String :=
  if fs.hasDriftDetect then .ok (pathJoin basePath "drift-detect")
  else .error (.fileNotFound ("Directory drift-detect not found at " ++ basePath))

/-- Embeds `get_drift.check_drift_detect_archive_folder`. -/
def check_drift_detect_archive_folder (basePath : String) (fs : BaseFS) : Except Err String :=
  if fs.hasDriftDetectArchive then .ok (pathJoin basePath "drift-detect-archive")
  else .error (.fileNotFound ("Directory drift-detect-archive not found at " ++ basePath))

/-- Embeds `get_drift.get_subfolders`: `os.listdir` followed by the `os.path.isdir`
filter.  Note the source has no exclusion of any reserved name here. -/
def get_subfolders (listing : List (String × DDEntry)) : List String :=
  nsOf (listing.filter (fun p => match p.2 with | .dir _ => true | .stray => false))

/-- The timestamp-named files of a directory listing (unsorted). -/
def tsNames (files : Listing) : List String :=
  nsOf (files.filter (fun f => is_timestamp_file f.1))

/-- Embeds `get_drift.get_timestamp_files`: the timestamp-named files of a
directory, sorted ascending by Python string comparison.  The source sorts
`(file_name, file_path)` pairs, which with the unique names of one directory
equals sorting the names; it returns full paths, while every caller only
uses the basename, so the embedding returns the names. -/
def get_timestamp_files (files : Listing) : List String :=
  sortByB nameLe (tsNames files)

/-- Embeds `get_drift.ensure_subfolder_in_archive`
(`utils.ensure_directory_exists` on `drift-detect-archive/<t>`): creates the
directory when the path does not exist; a no-op when it exists — even when
it exists as a plain file, because the source only tests
`os.path.exists`. -/
def ensure_subfolder_in_archive (fs : BaseFS) (t : String) : BaseFS :=
  match lookupA fs.archive t with
  | some _ => fs
  | none => { fs with archive := updateA fs.archive t (.dir ⟨[], false, []⟩) }

/-- The archive-subfolder listing of target `t` (empty when absent or not a
directory). -/
def archFiles (fs : BaseFS) (t : String) : Listing :=
  match lookupA fs.archive t with
  | some (.dir a) => a.files
  | _ => []

/-- The `get_drift.move_timestamp_file_to_archive` loop of
`process_drift_detect_subfolders`: one `shutil.copy2` per timestamp file
into `drift-detect-archive/<t>`.  A copy raises `IOError` when the
environment fails it, when the source file is missing, or when the
destination parent is not a directory; otherwise it writes the file,
overwriting a same-named file.  (The copied file keeps its `FileInfo`: its
fresh creation time is never observed, because only `drift_`-prefixed names
are ever tested for recency and timestamp names never carry that prefix.) -/
def copyTsFiles (env : Env) (basePath t : String) (src : Listing) :
    List String → BaseFS → Except Err BaseFS
  | [], fs => .ok fs
  | n :: rest, fs =>
    let srcPath := pathJoin (pathJoin (pathJoin basePath "drift-detect") t) n
    if env.ioFail srcPath then .error (.ioError srcPath)
    else
      match lookupA src n with
      | none => .error (.ioError srcPath)
      | some fi =>
        match lookupA fs.archive t with
        | some (.dir a) =>
          copyTsFiles env basePath t src rest
            { fs with archive := updateA fs.archive t (.dir { a with files := updateA a.files n fi }) }
        | _ => .error (.ioError srcPath)

/-- Embeds the loop of `get_drift.process_drift_detect_subfolders`, recursing over the
`drift-detect` listing exactly as the source iterates the result of
`get_subfolders` (stray files fail the `isdir` filter and are skipped; the
loop never mutates `drift-detect`, so the snapshot stays live).  Returns the
keys of `subfolders_to_process` in insertion order together with the mutated
filesystem. -/
def processDD (env : Env) (basePath : String) :
    List (String × DDEntry) → BaseFS → List String → Except Err (List String × BaseFS)
  | [], fs, acc => .ok (acc, fs)
  | (_, .stray) :: rest, fs, acc => processDD env basePath rest fs acc
  | (t, .dir d) :: rest, fs, acc =>
    if (get_timestamp_files d.files).isEmpty then processDD env basePath rest fs acc
    else
      match copyTsFiles env basePath t d.files (get_timestamp_files d.files)
          (ensure_subfolder_in_archive fs t) with
      | .error e => .error e
      | .ok fs2 =>
        if (get_timestamp_files (archFiles fs2 t)).length = 2 then
          processDD env basePath rest fs2 (acc ++ [t])
        else processDD env basePath rest fs2 acc

/-- Embeds `get_drift.process_drift_detect_subfolders`. -/
def process_drift_detect_subfolders (env : Env) (basePath : String) (fs : BaseFS) :
    Except Err (List String × BaseFS) :=
  processDD env basePath fs.driftDetect fs []

/-- Embeds `get_drift.move_existing_drift_files`: walk the listing snapshot and
`shutil.move` every `drift_`-prefixed file into the `drift_archive`
retention folder.  The two accumulators are the current subfolder listing
and the current `drift_archive` listing. -/
def move_existing_drift_files (env : Env) (basePath t : String) :
    List (String × FileInfo) → Listing → Listing → Except Err (Listing × Listing)
  | [], files, daf => .ok (files, daf)
  | (n, fi) :: rest, files, daf =>
    if "drift_".data.isPrefixOf n.data then
      let srcPath := pathJoin (pathJoin (pathJoin basePath "drift-detect-archive") t) n
      if env.ioFail srcPath then .error (.ioError srcPath)
      else move_existing_drift_files env basePath t rest (removeA files n) (updateA daf n fi)
    else move_existing_drift_files env basePath t rest files daf

/-- Embeds `get_drift.find_new_drift_file`: the first listed file whose name
carries the reserved `drift_` prefix and whose creation time falls within
the 60-second recency window (the `recent` flag of the model). -/
def find_new_drift_file (files : Listing) : Option (String × FileInfo) :=
  files.find? (fun f => "drift_".data.isPrefixOf f.1.data && f.2.recent)

/-- The argument vector `get_drift.run_cartography_detect_drift` passes to
`run_command`: the file basenames serve as start/end markers. -/
def cartographyCmd (startName endName : String) : List String :=
  ["cartography", "detect-drift", "--start_time=" ++ startName, "--end_time=" ++ endName]

/-- Embeds `get_drift.process_archive_subfolder` on archive target `t`: ensure the
`drift_archive` folder, re-check for exactly two timestamp files, relocate
pre-existing `drift_`-prefixed files, invoke the analyzer (its exit status
and the files it writes come from `Env`; the invocation is recorded in the
trace), search for the fresh output and consolidate it.  The inner `try`
confines a JSON parse failure (`content = none`) to this target. -/
def process_archive_subfolder (env : Env) (basePath t : String)
    (cdata : Report) (st : St) : Except Err (Bool × Report × St) :=
  match lookupA st.fs.archive t with
  | some (.dir a) =>
    match get_timestamp_files a.files with
    | [startName, endName] =>
      match move_existing_drift_files env basePath t a.files a.files a.driftArchiveFiles with
      | .error e => .error e
      | .ok (files2, daf2) =>
        let cmd := cartographyCmd startName endName
        let files3 := files2 ++ env.analyzerFiles t
        let a2 : ArchDir := ⟨files3, true, daf2⟩
        let st2 : St :=
          { fs := { st.fs with archive := updateA st.fs.archive t (.dir a2) },
            invoked := st.invoked ++ [(t, cmd)] }
        if env.analyzerOk cmd then
          match find_new_drift_file files3 with
          | some nf =>
            match nf.2.content with
            | some j => .ok (true, updateA cdata t (.drift j), st2)
            | none => .ok (false, cdata, st2)
          | none => .ok (false, cdata, st2)
        else .ok (false, cdata, st2)
    | _ =>
      .ok (false, cdata,
        { st with fs := { st.fs with
            archive := updateA st.fs.archive t (.dir ⟨a.files, true, a.driftArchiveFiles⟩) } })
  | _ => .error (.fileNotFound t)

/-- The loop of `get_drift.run_get_drift` over `subfolders_to_process`,
tallying the successes. -/
def processSelected (env : Env) (basePath : String) :
    List String → Report → St → Nat → Except Err (Report × St × Nat)
  | [], cdata, st, n => .ok (cdata, st, n)
  | t :: rest, cdata, st, n =>
    match process_archive_subfolder env basePath t cdata st with
    | .error e => .error e
    | .ok (ok, cdata2, st2) =>
      processSelected env basePath rest cdata2 st2 (if ok then n + 1 else n)

/-- Embeds `get_drift.push_to_pocketbase`: returns `False` when the credentials are
missing and `True` otherwise (the API interaction itself is a stub in the
source); its own `try` swallows every exception, so it never raises. -/
def push_to_pocketbase (env : Env) : Bool := env.hasPocketbaseCreds

/-- Embeds `get_drift.run_get_drift`.  The `try`/`except` wrapped around the body
logs any exception and re-raises it, so every error propagates to the
caller unchanged.  The local serialization of the report to
`drift_report.json` is a pure write of the returned value into the base
directory and is not further modelled. -/
def run_get_drift (env : Env) (basePath : String) (fs : BaseFS) :
    Except Err (Report × St) :=
  match check_drift_detect_folder basePath fs with
  | .error e => .error e
  | .ok _ =>
    match check_drift_detect_archive_folder basePath fs with
    | .error e => .error e
    | .ok _ =>
      match process_drift_detect_subfolders env basePath fs with
      | .error e => .error e
      | .ok (sel, fs1) =>
        if sel.isEmpty then .ok ([], ⟨fs1, []⟩)
        else
          match processSelected env basePath sel [] ⟨fs1, []⟩ 0 with
          | .error e => .error e
          | .ok (cdata, st, successCount) =>
            let report :=
              updateA cdata "_metadata" (.meta env.now basePath sel.length successCount)
            let _ := push_to_pocketbase env
            .ok (report, st)

/-! ## `get_state.handle_existing_timestamp_files` -/

/-- Embeds `get_state.handle_existing_timestamp_files`: collect the
timestamp-named files of the target, sort them descending
(`list.sort(reverse=True)` on `(file_name, file_path)` pairs — with the
unique names of one directory this is the name order), keep the first
(most recent in that order) in place, and `shutil.move` every other one
into the `archive` folder. -/
def handle_existing_timestamp_files (sub archive : Listing) : Listing × Listing :=
  match sortByB (fun p q : String × FileInfo => nameLe q.1 p.1)
      (sub.filter (fun f => is_timestamp_file f.1)) with
  | [] => (sub, archive)
  | _ :: olds =>
    olds.foldl (fun acc nf => (removeA acc.1 nf.1, updateA acc.2 nf.1 nf.2)) (sub, archive)

/-! ## `utils.run_command` -/

/-- What the operating system does when asked to spawn the child process. -/
inductive ExecOutcome where
  | completed (returncode : Int) (stdout : String) (stderr : String)
  | osError (msg : String)
deriving Repr, DecidableEq

/-- The exceptions `subprocess.run` can raise under `check=True`. -/
inductive SubprocessErr where
  | calledProcessError (returncode : Int) (stderr : String)
  | osError (msg : String)
deriving Repr, DecidableEq

/-- Models `subprocess.run(command, ..., check=True)`: raises
`CalledProcessError` on a nonzero exit status, re-raises the OS error when
the child could not be executed (e.g. a missing executable), and returns
the completed process otherwise. -/
def subprocess_run_check (o : ExecOutcome) : Except SubprocessErr (Int × String × String) :=
  match o with
  | .completed rc out err =>
    if rc = 0 then .ok (rc, out, err) else .error (.calledProcessError rc err)
  | .osError m => .error (.osError m)

/-- Embeds `utils.run_command`: runs the command and converts every outcome to a
Boolean — `except CalledProcessError` turns a nonzero exit status into
`False`, and the final `except Exception` turns every other execution error
into `False`. -/
def run_command (o : ExecOutcome) : Bool :=
  match subprocess_run_check o with
  | .ok _ => true
  | .error (.calledProcessError _ _) => false
  | .error (.osError _) => false

/-! ## Projections and spec-side vocabulary for the theorems -/

/-- The report of a run, empty when the run raised. -/
def reportOf (r : Except Err (Report × St)) : Report :=
  match r with
  | .ok p => p.1
  | .error _ => []

/-- The final state of a run. -/
def stOf (r : Except Err (Report × St)) : St :=
  match r with
  | .ok p => p.2
  | .error _ => ⟨⟨false, [], false, []⟩, []⟩

/-- Whether a run returned normally. -/
def runOk (r : Except Err (Report × St)) : Bool :=
  match r with
  | .ok _ => true
  | .error _ => false

/-- Add a name to a name list when it is new (how a directory grows under
file writes that overwrite same-named files). -/
def addNew (ns : List String) (n : String) : List String :=
  if n ∈ ns then ns else ns ++ [n]

/-- Union of name lists by `addNew`. -/
def unionNames (ns ms : List String) : List String := ms.foldl addNew ns

/-- The target directories among the `drift-detect` entries. -/
def dirTargets (listing : List (String × DDEntry)) : List (String × TargetDir) :=
  listing.filterMap (fun p => match p.2 with | .dir d => some (p.1, d) | .stray => none)

/-- Specification-side selection criterion: a target enters
`subfolders_to_process` exactly when it has at least one timestamp file and
its archive subfolder would hold exactly two distinct timestamp names after
the copy step. -/
def qualifies (fs : BaseFS) (p : String × TargetDir) : Bool :=
  !(tsNames p.2.files).isEmpty &&
    (unionNames (tsNames (archFiles fs p.1)) (tsNames p.2.files)).length == 2

/-- Specification-side list of the selected targets, in listing order. -/
def selChar (fs : BaseFS) : List String :=
  nsOf ((dirTargets fs.driftDetect).filter (qualifies fs))

/-- The retained (archive-side) snapshot count the pairing step checks for a
target: the number of distinct timestamp names its archive subfolder holds
after the copy step (for a target with no timestamp file nothing is copied,
so it is the pre-existing archive count). -/
def retainedCount (fs : BaseFS) (p : String × TargetDir) : Nat :=
  if (tsNames p.2.files).isEmpty then (tsNames (archFiles fs p.1)).length
  else (unionNames (tsNames (archFiles fs p.1)) (tsNames p.2.files)).length

/-- A name list without duplicates. -/
def namesNodup {α : Type} (l : List (String × α)) : Prop := (nsOf l).Nodup

instance {α : Type} (l : List (String × α)) : Decidable (namesNodup l) := by
  unfold namesNodup
  infer_instance

/-- The listing of a `drift-detect` entry. -/
def ddFilesOf : DDEntry → Listing
  | .dir d => d.files
  | .stray => []

/-- The listing of a `drift-detect-archive` entry. -/
def archFilesOf : ArchEntry → Listing
  | .dir a => a.files
  | .stray => []

/-- Well-formedness of the modelled filesystem: directory listings carry
each name at most once, as real directories do. -/
def WF (fs : BaseFS) : Prop :=
  namesNodup fs.driftDetect ∧ namesNodup fs.archive ∧
    (∀ p ∈ fs.driftDetect, namesNodup (ddFilesOf p.2)) ∧
    (∀ p ∈ fs.archive, namesNodup (archFilesOf p.2))

instance (fs : BaseFS) : Decidable (WF fs) := by
  unfold WF namesNodup
  infer_instance

/-! ## Concrete fixtures for the counterexample and witness theorems -/

/-- A stale file whose payload parses. -/
def fiStale : FileInfo := ⟨false, some "OLD"⟩

/-- The environment with nothing failing: no I/O fault, the analyzer exits 0
and writes nothing, no PocketBase credentials. -/
def envOk : Env :=
  { ioFail := fun _ => false
    analyzerOk := fun _ => true
    analyzerFiles := fun _ => []
    now := "T"
    hasPocketbaseCreds := false }

/-- Two targets with two snapshots each; the copy of the first snapshot of
`svcA` fails with `IOError`, while `svcB` alone would have produced a
diff. -/
def fsC2 : BaseFS :=
  { hasDriftDetect := true
    driftDetect :=
      [("svcA", .dir ⟨[("1.2.3.4.5.6.7.8", fiStale), ("1.2.3.4.5.6.7.9", fiStale)], []⟩),
       ("svcB", .dir ⟨[("1.2.3.4.5.6.7.8", fiStale), ("1.2.3.4.5.6.7.9", fiStale)], []⟩)]
    hasDriftDetectArchive := true
    archive := [] }

/-- The environment that fails exactly the first copy of `svcA` and lets the
analyzer produce a fresh parseable output for `svcB`. -/
def envC2 : Env :=
  { envOk with
    ioFail := fun p => p == "base/drift-detect/svcA/1.2.3.4.5.6.7.8"
    analyzerFiles := fun t => if t == "svcB" then [("drift_out.json", ⟨true, some "B"⟩)] else [] }

/-- Fixture where `svc1` holds two snapshots and `svc2` holds none. -/
def fsC3 : BaseFS :=
  { hasDriftDetect := true
    driftDetect :=
      [("svc1", .dir ⟨[("1.2.3.4.5.6.7.8", fiStale), ("1.2.3.4.5.6.7.9", fiStale)], []⟩),
       ("svc2", .dir ⟨[], []⟩)]
    hasDriftDetectArchive := true
    archive := [] }

/-- The environment whose analyzer exits nonzero (no diff produced). -/
def envFail : Env := { envOk with analyzerOk := fun _ => false }

/-- Both top-level directories exist, but the single target has no
timestamp file, so no target qualifies for comparison. -/
def fsC5 : BaseFS :=
  { hasDriftDetect := true
    driftDetect := [("svc", .dir ⟨[("template.json", fiStale)], []⟩)]
    hasDriftDetectArchive := true
    archive := [] }

/-- A directory literally named `_metadata` under `drift-detect`, holding
two snapshots. -/
def fsC8 : BaseFS :=
  { hasDriftDetect := true
    driftDetect :=
      [("_metadata", .dir ⟨[("1.2.3.4.5.6.7.8", fiStale), ("1.2.3.4.5.6.7.9", fiStale)], []⟩)]
    hasDriftDetectArchive := true
    archive := [] }

/-- The environment whose analyzer writes a fresh parseable drift output for
the `_metadata` target. -/
def envC8 : Env :=
  { envOk with
    analyzerFiles := fun t => if t == "_metadata" then [("drift_new.json", ⟨true, some "D"⟩)] else [] }

/-! # Lemmas and theorems

First the infrastructure lemmas about the association-list, comparison and
sorting primitives, then one theorem per claim together with the
counterexample and witness theorems. -/

/-! ## Association lists -/


theorem lookupA_updateA_self {α : Type} (l : List (String × α)) (k : String) (v : α) :
    lookupA (updateA l k v) k = some v := by
  induction l with
  | nil => simp [updateA, lookupA]
  | cons p rest ih =>
    by_cases h : p.1 = k
    · simp [updateA, h, lookupA]
    · simp [updateA, h, lookupA, ih]

theorem lookupA_updateA_ne {α : Type} (l : List (String × α)) {k k2 : String} (v : α)
    (h : k ≠ k2) : lookupA (updateA l k v) k2 = lookupA l k2 := by
  induction l with
  | nil => simp [updateA, lookupA, h]
  | cons p rest ih =>
    by_cases hp : p.1 = k
    · subst hp
      simp [updateA, lookupA, h, ih]
    · by_cases hp2 : p.1 = k2 <;> simp [updateA, lookupA, hp, hp2, ih, Ne.symm h]

theorem mem_removeA {α : Type} {l : List (String × α)} {k : String} {p : String × α} :
    p ∈ removeA l k ↔ p ∈ l ∧ p.1 ≠ k := by
  induction l with
  | nil => simp [removeA]
  | cons q rest ih =>
    by_cases h : q.1 = k
    · rw [show removeA (q :: rest) k = removeA rest k by simp [removeA, h], ih]
      simp only [List.mem_cons]
      constructor
      · exact fun ⟨hm, hne⟩ => ⟨Or.inr hm, hne⟩
      · rintro ⟨rfl | hm, hne⟩
        · exact absurd h hne
        · exact ⟨hm, hne⟩
    · rw [show removeA (q :: rest) k = q :: removeA rest k by simp [removeA, h]]
      simp only [List.mem_cons, ih]
      constructor
      · rintro (rfl | ⟨hm, hne⟩)
        · exact ⟨Or.inl rfl, h⟩
        · exact ⟨Or.inr hm, hne⟩
      · rintro ⟨rfl | hm, hne⟩
        · exact Or.inl rfl
        · exact Or.inr ⟨hm, hne⟩

theorem lookupA_eq_none_iff {α : Type} {l : List (String × α)} {k : String} :
    lookupA l k = none ↔ k ∉ nsOf l := by
  induction l with
  | nil => simp [lookupA, nsOf]
  | cons p rest ih =>
    by_cases h : p.1 = k
    · subst h
      simp [lookupA, nsOf]
    · rw [show lookupA (p :: rest) k = lookupA rest k by simp [lookupA, h], ih]
      simp only [nsOf, List.map_cons, List.mem_cons]
      constructor
      · intro hk hor
        rcases hor with heq | hm
        · exact h heq.symm
        · exact hk hm
      · intro hk hm
        exact hk (Or.inr hm)

theorem lookupA_mem {α : Type} {l : List (String × α)} {k : String} {v : α}
    (h : lookupA l k = some v) : (k, v) ∈ l := by
  induction l with
  | nil => simp [lookupA] at h
  | cons p rest ih =>
    by_cases hp : p.1 = k
    · rw [lookupA, if_pos hp] at h
      have hv : p.2 = v := by injection h
      have : p = (k, v) := by
        cases p
        simp_all
      rw [← this]
      exact List.mem_cons_self p rest
    · rw [lookupA, if_neg hp] at h
      exact List.mem_cons_of_mem p (ih h)

theorem nsOf_updateA {α : Type} (l : List (String × α)) (k : String) (v : α) :
    nsOf (updateA l k v) = if k ∈ nsOf l then nsOf l else nsOf l ++ [k] := by
  induction l with
  | nil => simp [updateA, nsOf]
  | cons p rest ih =>
    by_cases h : p.1 = k
    · simp [updateA, h, nsOf, List.mem_cons, eq_comm]
    · have h2 : ¬ k = p.1 := fun hk => h hk.symm
      have hup : updateA (p :: rest) k v = p :: updateA rest k v := by simp [updateA, h]
      rw [hup]
      have hns : nsOf (p :: updateA rest k v) = p.1 :: nsOf (updateA rest k v) := rfl
      rw [hns, ih]
      have hmemiff : (k ∈ nsOf (p :: rest)) ↔ (k ∈ nsOf rest) := by
        simp [nsOf, h2]
      by_cases hmem : k ∈ nsOf rest
      · rw [if_pos hmem, if_pos (hmemiff.mpr hmem)]
        rfl
      · rw [if_neg hmem, if_neg (fun hx => hmem (hmemiff.mp hx))]
        rfl

theorem mem_nsOf_updateA {α : Type} {l : List (String × α)} {k : String} {v : α} {n : String} :
    n ∈ nsOf (updateA l k v) ↔ n ∈ nsOf l ∨ n = k := by
  rw [nsOf_updateA]
  by_cases h : k ∈ nsOf l
  · rw [if_pos h]
    constructor
    · exact Or.inl
    · rintro (hm | rfl)
      · exact hm
      · exact h
  · rw [if_neg h]
    simp

theorem nodup_updateA {α : Type} {l : List (String × α)} (k : String) (v : α)
    (h : namesNodup l) : namesNodup (updateA l k v) := by
  unfold namesNodup at h ⊢
  rw [nsOf_updateA]
  by_cases hmem : k ∈ nsOf l
  · rwa [if_pos hmem]
  · rw [if_neg hmem]
    refine List.Nodup.append h (List.nodup_singleton k) ?_
    intro a ha hk
    rw [List.mem_singleton] at hk
    subst hk
    exact hmem ha

/-! ## The Python string order -/

theorem charsLt_irrefl (a : List Char) : charsLt a a = false := by
  induction a with
  | nil => rfl
  | cons c cs ih => simp [charsLt, ih]

theorem charsLt_asymm : ∀ {a b : List Char}, charsLt a b = true → charsLt b a = false
  | [], [], h => by simp [charsLt] at h
  | [], _ :: _, _ => by simp [charsLt]
  | _ :: _, [], h => by simp [charsLt] at h
  | c :: cs, d :: ds, h => by
    rcases Nat.lt_trichotomy c.val.toNat d.val.toNat with hlt | heq | hgt
    · simp [charsLt, Nat.lt_asymm hlt, hlt]
    · simp only [charsLt, heq, Nat.lt_irrefl, if_false] at h ⊢
      exact charsLt_asymm h
    · simp [charsLt, Nat.lt_asymm hgt, hgt] at h

theorem charsLt_trans : ∀ {a b c : List Char},
    charsLt a b = true → charsLt b c = true → charsLt a c = true
  | [], _, _ :: _, _, _ => by simp [charsLt]
  | [], _ :: _, [], _, h2 => by simp [charsLt] at h2
  | [], [], [], h1, _ => by simp [charsLt] at h1
  | _ :: _, [], _, h1, _ => by simp [charsLt] at h1
  | _ :: _, _ :: _, [], _, h2 => by simp [charsLt] at h2
  | a :: as, b :: bs, c :: cs, h1, h2 => by
    rcases Nat.lt_trichotomy a.val.toNat b.val.toNat with hab | hab | hab
    · rcases Nat.lt_trichotomy b.val.toNat c.val.toNat with hbc | hbc | hbc
      · simp [charsLt, Nat.lt_trans hab hbc]
      · simp [charsLt, hbc ▸ hab]
      · simp [charsLt, Nat.lt_asymm hbc, hbc] at h2
    · rcases Nat.lt_trichotomy b.val.toNat c.val.toNat with hbc | hbc | hbc
      · simp [charsLt, hab ▸ hbc]
      · simp only [charsLt, hab, hbc, Nat.lt_irrefl, if_false] at h1 h2 ⊢
        exact charsLt_trans h1 h2
      · simp [charsLt, Nat.lt_asymm hbc, hbc] at h2
    · simp [charsLt, Nat.lt_asymm hab, hab] at h1

theorem charsLt_conn : ∀ {a b : List Char},
    charsLt a b = false → charsLt b a = false → a = b
  | [], [], _, _ => rfl
  | [], _ :: _, h1, _ => by simp [charsLt] at h1
  | _ :: _, [], _, h2 => by simp [charsLt] at h2
  | a :: as, b :: bs, h1, h2 => by
    rcases Nat.lt_trichotomy a.val.toNat b.val.toNat with hab | hab | hab
    · simp [charsLt, hab] at h1
    · have hchar : a = b := Char.ext (UInt32.eq_of_val_eq (Fin.eq_of_val_eq hab))
      subst hchar
      simp only [charsLt, Nat.lt_irrefl, if_false] at h1 h2
      rw [charsLt_conn h1 h2]
    · simp [charsLt, hab] at h2

theorem charsLt_tricho (a b : List Char) :
    charsLt a b = true ∨ charsLt b a = true ∨ a = b := by
  by_cases x1 : charsLt a b = true
  · exact Or.inl x1
  · by_cases x2 : charsLt b a = true
    · exact Or.inr (Or.inl x2)
    · refine Or.inr (Or.inr (charsLt_conn ?_ ?_))
      · simpa using x1
      · simpa using x2

theorem nameLe_refl (a : String) : nameLe a a = true := by
  simp [nameLe, charsLt_irrefl]

theorem nameLe_of_not (a b : String) (h : nameLe a b = false) : nameLe b a = true := by
  unfold nameLe at h ⊢
  rw [Bool.not_eq_false'] at h
  rw [charsLt_asymm h]
  rfl

theorem nameLe_trans (a b c : String) (h1 : nameLe a b = true) (h2 : nameLe b c = true) :
    nameLe a c = true := by
  unfold nameLe at h1 h2 ⊢
  rw [Bool.not_eq_true'] at h1 h2 ⊢
  by_contra hc
  have hc2 : charsLt c.data a.data = true := by simpa using hc
  rcases charsLt_tricho b.data c.data with hbc | hbc | hbc
  · exact absurd (charsLt_trans hbc hc2) (by simp [h1])
  · exact absurd hbc (by simp [h2])
  · exact absurd (hbc ▸ hc2) (by simp [h1])

theorem nameLe_antisymm (a b : String) (h1 : nameLe a b = true) (h2 : nameLe b a = true) :
    a = b := by
  unfold nameLe at h1 h2
  rw [Bool.not_eq_true'] at h1 h2
  have hdata : a.data = b.data := charsLt_conn h2 h1
  cases a with
  | mk da =>
    cases b with
    | mk db => exact congrArg String.mk hdata

/-! ## Sorting -/

theorem insSorted_perm {α : Type} (le : α → α → Bool) (x : α) (l : List α) :
    (insSorted le x l).Perm (x :: l) := by
  induction l with
  | nil => exact List.Perm.refl _
  | cons y ys ih =>
    by_cases h : le x y = true
    · simp [insSorted, h]
    · simp only [insSorted, h, if_false]
      exact (ih.cons y).trans (List.Perm.swap x y ys)

theorem sortByB_perm {α : Type} (le : α → α → Bool) (l : List α) :
    (sortByB le l).Perm l := by
  induction l with
  | nil => exact List.Perm.refl _
  | cons x xs ih =>
    exact (insSorted_perm le x (sortByB le xs)).trans (ih.cons x)

theorem sortByB_length {α : Type} (le : α → α → Bool) (l : List α) :
    (sortByB le l).length = l.length :=
  (sortByB_perm le l).length_eq

theorem mem_sortByB {α : Type} (le : α → α → Bool) {l : List α} {a : α} :
    a ∈ sortByB le l ↔ a ∈ l :=
  (sortByB_perm le l).mem_iff

theorem sortByB_eq_nil {α : Type} (le : α → α → Bool) {l : List α} :
    sortByB le l = [] ↔ l = [] := by
  constructor
  · intro h
    have hp := sortByB_perm le l
    rw [h] at hp
    exact hp.symm.eq_nil
  · rintro rfl
    rfl

theorem insSorted_pairwise {α : Type} (le : α → α → Bool)
    (htot : ∀ a b, le a b = false → le b a = true)
    (htrans : ∀ a b c, le a b = true → le b c = true → le a c = true)
    (x : α) {l : List α} (hl : l.Pairwise (fun a b => le a b = true)) :
    (insSorted le x l).Pairwise (fun a b => le a b = true) := by
  induction l with
  | nil => simp [insSorted]
  | cons y ys ih =>
    obtain ⟨hy, hys⟩ := List.pairwise_cons.mp hl
    by_cases h : le x y = true
    · rw [show insSorted le x (y :: ys) = x :: y :: ys by simp [insSorted, h]]
      refine List.Pairwise.cons ?_ hl
      intro b hb
      rcases List.mem_cons.mp hb with rfl | hb
      · exact h
      · exact htrans x y b h (hy b hb)
    · rw [show insSorted le x (y :: ys) = y :: insSorted le x ys by simp [insSorted, h]]
      refine List.Pairwise.cons ?_ (ih hys)
      intro b hb
      have hb2 : b = x ∨ b ∈ ys := by
        simpa using (insSorted_perm le x ys).mem_iff.mp hb
      rcases hb2 with rfl | hb2
      · exact htot b y (by simpa using h)
      · exact hy b hb2

theorem sortByB_pairwise {α : Type} (le : α → α → Bool)
    (htot : ∀ a b, le a b = false → le b a = true)
    (htrans : ∀ a b c, le a b = true → le b c = true → le a c = true)
    (l : List α) : (sortByB le l).Pairwise (fun a b => le a b = true) := by
  induction l with
  | nil => simp [sortByB]
  | cons x xs ih => exact insSorted_pairwise le htot htrans x ih


/-! ## C10 — `run_command` is total over its error behaviour -/

/-- C10: `run_command` maps every execution outcome to a Boolean and lets no
exception escape to its caller: it returns `true` exactly when the child
process ran to completion with exit status 0, while a nonzero exit status
(`CalledProcessError` under `check=True`) and any other execution error
(e.g. a missing executable) are caught and reported as `false`. -/
theorem C10_run_command_total (o : ExecOutcome) :
    run_command o = true ↔ ∃ out err, o = .completed 0 out err := by
  cases o with
  | completed rc out err =>
    by_cases h : rc = 0
    · subst h
      simp [run_command, subprocess_run_check]
    · simp [run_command, subprocess_run_check, h]
  | osError m => simp [run_command, subprocess_run_check]

/-! ## C1 — snapshot ordering is string sort, not numeric -/

/-- C1: evaluation of the code at the failing input.  The snapshot ordering
used by `get_timestamp_files` is plain string sort: it lists
`2025.10.27.22.5.9.3.86.0` (October) before `2025.9.27.22.5.9.3.86.0`
(September) as "oldest first", while the numeric per-dot-group comparison
required by the claim — and by the docstring "sorted by timestamp (oldest
first)" — orders September first. -/
theorem C1_string_sort_vs_numeric :
    get_timestamp_files
        [("2025.9.27.22.5.9.3.86.0", fiStale), ("2025.10.27.22.5.9.3.86.0", fiStale)] =
      ["2025.10.27.22.5.9.3.86.0", "2025.9.27.22.5.9.3.86.0"] ∧
    specNumericLt "2025.9.27.22.5.9.3.86.0" "2025.10.27.22.5.9.3.86.0" = true := by
  decide

/-! ## C2 — an `IOError` during a target aborts the whole run -/

/-- C2 counterexample: both top-level directories exist and the copy of one
snapshot of `svcA` fails with `IOError`; `run_get_drift` propagates the
exception instead of continuing with the remaining target `svcB` (which
alone would have produced a diff) — no consolidated report is returned. -/
theorem C2_counterexample :
    run_get_drift envC2 "base" fsC2 =
      .error (.ioError "base/drift-detect/svcA/1.2.3.4.5.6.7.8") := by
  rfl

/-- C2 amended: a filesystem failure while processing targets is not
confined to the failing target — the `try`/`except` of `run_get_drift`
re-raises, so an error of the copy stage, and an error of the
archive-processing loop, each propagates out of `run_get_drift` unchanged;
only the inner read/parse of a produced drift file is confined per
target. -/
theorem C2_amended_errors_propagate (env : Env) (basePath : String) (fs : BaseFS) (e : Err)
    (hdd : fs.hasDriftDetect = true) (hda : fs.hasDriftDetectArchive = true) :
    (process_drift_detect_subfolders env basePath fs = .error e →
      run_get_drift env basePath fs = .error e) ∧
    (∀ sel fs1, process_drift_detect_subfolders env basePath fs = .ok (sel, fs1) →
      processSelected env basePath sel [] ⟨fs1, []⟩ 0 = .error e →
      run_get_drift env basePath fs = .error e) := by
  constructor
  · intro h
    simp [run_get_drift, check_drift_detect_folder, check_drift_detect_archive_folder,
      hdd, hda, h]
  · intro sel fs1 h1 h2
    cases sel with
    | nil => simp [processSelected] at h2
    | cons t rest =>
      simp [run_get_drift, check_drift_detect_folder, check_drift_detect_archive_folder,
        hdd, hda, h1, h2]

/-- C2 witness: the propagation theorem applied to the concrete failing
run. -/
theorem C2_amended_errors_propagate_witness :
    run_get_drift envC2 "base" fsC2 =
      .error (.ioError "base/drift-detect/svcA/1.2.3.4.5.6.7.8") :=
  (C2_amended_errors_propagate envC2 "base" fsC2
      (.ioError "base/drift-detect/svcA/1.2.3.4.5.6.7.8") rfl rfl).1 (by rfl)

/-! ## C3 — `subfolders_processed` counts only the selected targets -/

/-- C3 counterexample: two targets are considered (`svc1` with two
snapshots, `svc2` with none), yet the metadata of the returned report counts
`subfolders_processed = 1` — the zero-snapshot target is not included in the
count, where the claim requires every considered target to be counted. -/
theorem C3_counterexample :
    (get_subfolders fsC3.driftDetect).length = 2 ∧
    runOk (run_get_drift envFail "base" fsC3) = true ∧
    lookupA (reportOf (run_get_drift envFail "base" fsC3)) "_metadata" =
      some (.meta "T" "base" 1 0) := by
  decide

/-! ## C5 — the report can lack `_metadata` entirely -/

/-- C5 counterexample: both top-level directories exist but no target
qualifies for comparison; `run_get_drift` returns normally with an empty
report that carries no `_metadata` entry at all, where the claim requires a
`_metadata` entry in every normally-returned report. -/
theorem C5_counterexample :
    runOk (run_get_drift envOk "base" fsC5) = true ∧
    reportOf (run_get_drift envOk "base" fsC5) = [] ∧
    lookupA (reportOf (run_get_drift envOk "base" fsC5)) "_metadata" = none := by
  decide

/-! ## C6 — the optional extension may itself be all digits -/

/-- C6 counterexample: a name of ten all-digit dot-groups and no extension
is accepted by `is_timestamp_file` — the regex reads it as nine digit groups
followed by an all-digit `\.\w+` extension — where the claim requires every
name with a group count outside 8–9 to be rejected. -/
theorem C6_counterexample : is_timestamp_file "1.2.3.4.5.6.7.8.9.10" = true := by
  decide

/-! ## C8 — `_metadata` is not excluded from target discovery -/

/-- C8 counterexample: a directory literally named `_metadata` under
`drift-detect` is not skipped during target enumeration — `get_subfolders`
returns it, the run selects and diffs it (`subfolders_processed = 1`,
`subfolders_with_drift = 1`), and the reserved metadata entry then
overwrites its drift record in the report. -/
theorem C8_counterexample :
    get_subfolders fsC8.driftDetect = ["_metadata"] ∧
    runOk (run_get_drift envC8 "base" fsC8) = true ∧
    lookupA (reportOf (run_get_drift envC8 "base" fsC8)) "_metadata" =
      some (.meta "T" "base" 1 1) := by
  decide

/-! ## C9 — keep-latest retention -/

theorem removeA_sublist {α : Type} (l : List (String × α)) (k : String) :
    (removeA l k).Sublist l := by
  induction l with
  | nil => exact List.Sublist.refl _
  | cons p rest ih =>
    by_cases h : p.1 = k
    · rw [show removeA (p :: rest) k = removeA rest k by simp [removeA, h]]
      exact ih.cons p
    · rw [show removeA (p :: rest) k = p :: removeA rest k by simp [removeA, h]]
      exact ih.cons₂ p

theorem moveFold_sublist (olds : List (String × FileInfo)) :
    ∀ sub arch : Listing,
      ((olds.foldl (fun acc nf => (removeA acc.1 nf.1, updateA acc.2 nf.1 nf.2))
        (sub, arch)).1).Sublist sub := by
  induction olds with
  | nil => intro sub arch; exact List.Sublist.refl _
  | cons nf rest ih =>
    intro sub arch
    simp only [List.foldl_cons]
    exact (ih _ _).trans (removeA_sublist sub nf.1)

theorem moveFold_fst_mem (olds : List (String × FileInfo)) :
    ∀ (sub arch : Listing) (p : String × FileInfo),
      p ∈ (olds.foldl (fun acc nf => (removeA acc.1 nf.1, updateA acc.2 nf.1 nf.2))
          (sub, arch)).1
        ↔ p ∈ sub ∧ p.1 ∉ nsOf olds := by
  induction olds with
  | nil => intro sub arch p; simp [nsOf]
  | cons nf rest ih =>
    intro sub arch p
    simp only [List.foldl_cons]
    rw [ih, mem_removeA]
    simp only [nsOf, List.map_cons, List.mem_cons]
    constructor
    · rintro ⟨⟨hm, hne⟩, hnin⟩
      refine ⟨hm, ?_⟩
      rintro (h1 | h2)
      · exact hne h1
      · exact hnin h2
    · rintro ⟨hm, hnin⟩
      exact ⟨⟨hm, fun h1 => hnin (Or.inl h1)⟩, fun h2 => hnin (Or.inr h2)⟩

theorem moveFold_snd_preserved (olds : List (String × FileInfo)) :
    ∀ (sub arch : Listing) (k : String), k ∉ nsOf olds →
      lookupA (olds.foldl (fun acc nf => (removeA acc.1 nf.1, updateA acc.2 nf.1 nf.2))
          (sub, arch)).2 k
        = lookupA arch k := by
  induction olds with
  | nil => intro sub arch k _; rfl
  | cons nf rest ih =>
    intro sub arch k hk
    simp only [nsOf, List.map_cons, List.mem_cons] at hk
    push_neg at hk
    simp only [List.foldl_cons]
    rw [ih _ _ _ (by simpa [nsOf] using hk.2)]
    exact lookupA_updateA_ne arch nf.2 (fun he => hk.1 he.symm)

theorem moveFold_snd_lookup (olds : List (String × FileInfo)) :
    ∀ sub arch : Listing, (nsOf olds).Nodup →
      ∀ nf ∈ olds,
        lookupA (olds.foldl (fun acc nf2 => (removeA acc.1 nf2.1, updateA acc.2 nf2.1 nf2.2))
            (sub, arch)).2 nf.1
          = some nf.2 := by
  induction olds with
  | nil =>
    intro sub arch _ nf h
    simp at h
  | cons q rest ih =>
    intro sub arch hnodup nf hnf
    simp only [nsOf, List.map_cons, List.nodup_cons] at hnodup
    simp only [List.foldl_cons]
    rcases List.mem_cons.mp hnf with rfl | hmem
    · rw [moveFold_snd_preserved rest _ _ _ (by simpa [nsOf] using hnodup.1)]
      exact lookupA_updateA_self arch nf.1 nf.2
    · exact ih _ _ (by simpa [nsOf] using hnodup.2) nf hmem

theorem length_le_one_of_nodup_of_all_eq {l : List String} (m : String)
    (hnd : l.Nodup) (hall : ∀ x ∈ l, x = m) : l.length ≤ 1 := by
  cases l with
  | nil => simp
  | cons a rest =>
    cases rest with
    | nil => simp
    | cons b rest2 =>
      exfalso
      have ha := hall a (by simp)
      have hb := hall b (by simp)
      rw [List.nodup_cons] at hnd
      exact hnd.1 (by simp [ha, hb])

theorem handle_short (sub archive : Listing) (h : (tsNames sub).length ≤ 1) :
    handle_existing_timestamp_files sub archive = (sub, archive) := by
  have hlen : (sortByB (fun p q : String × FileInfo => nameLe q.1 p.1)
      (sub.filter (fun f => is_timestamp_file f.1))).length ≤ 1 := by
    rw [sortByB_length]
    have hfl : (sub.filter (fun f => is_timestamp_file f.1)).length = (tsNames sub).length := by
      simp [tsNames, nsOf]
    rw [hfl]
    exact h
  simp only [handle_existing_timestamp_files]
  cases hs : sortByB (fun p q : String × FileInfo => nameLe q.1 p.1)
      (sub.filter (fun f => is_timestamp_file f.1)) with
  | nil => rfl
  | cons x olds =>
    rw [hs] at hlen
    cases olds with
    | nil => rfl
    | cons y rest =>
      simp only [List.length_cons] at hlen
      omega

/-- C9: the keep-latest retention step of `get_state` leaves the most recent
snapshot — the greatest name in the ordering the module sorts by — in place,
moves every older snapshot file into the archive listing, moves nothing when
the target holds zero or one snapshot file, and running the step twice in a
row with no new files produces the same layout as running it once. -/
theorem C9_keep_latest (sub archive : Listing) (hsub : namesNodup sub) :
    ((tsNames sub).length ≤ 1 →
      handle_existing_timestamp_files sub archive = (sub, archive)) ∧
    (∀ m, m ∈ tsNames sub → (∀ n ∈ tsNames sub, nameLe n m = true) →
      (∀ p ∈ sub, (is_timestamp_file p.1 = false ∨ p.1 = m) →
        p ∈ (handle_existing_timestamp_files sub archive).1) ∧
      (∀ p ∈ (handle_existing_timestamp_files sub archive).1, p ∈ sub) ∧
      (∀ p ∈ sub, is_timestamp_file p.1 = true → p.1 ≠ m →
        p.1 ∉ nsOf (handle_existing_timestamp_files sub archive).1 ∧
        lookupA (handle_existing_timestamp_files sub archive).2 p.1 = some p.2)) ∧
    handle_existing_timestamp_files
        (handle_existing_timestamp_files sub archive).1
        (handle_existing_timestamp_files sub archive).2 =
      handle_existing_timestamp_files sub archive := by
  have htot : ∀ a b : String × FileInfo,
      (fun p q : String × FileInfo => nameLe q.1 p.1) a b = false →
      (fun p q : String × FileInfo => nameLe q.1 p.1) b a = true :=
    fun a b h => nameLe_of_not b.1 a.1 h
  have htrans : ∀ a b c : String × FileInfo,
      (fun p q : String × FileInfo => nameLe q.1 p.1) a b = true →
      (fun p q : String × FileInfo => nameLe q.1 p.1) b c = true →
      (fun p q : String × FileInfo => nameLe q.1 p.1) a c = true :=
    fun a b c h1 h2 => nameLe_trans c.1 b.1 a.1 h2 h1
  have hperm : (sortByB (fun p q : String × FileInfo => nameLe q.1 p.1)
      (sub.filter (fun f => is_timestamp_file f.1))).Perm
        (sub.filter (fun f => is_timestamp_file f.1)) :=
    sortByB_perm _ _
  have htsnodup : (nsOf (sub.filter (fun f => is_timestamp_file f.1))).Nodup := by
    have hsl : (nsOf (sub.filter (fun f => is_timestamp_file f.1))).Sublist (nsOf sub) :=
      (List.filter_sublist sub).map _
    exact hsub.sublist hsl
  refine ⟨handle_short sub archive, ?_, ?_⟩
  · intro m hm hmax
    cases hs : sortByB (fun p q : String × FileInfo => nameLe q.1 p.1)
        (sub.filter (fun f => is_timestamp_file f.1)) with
    | nil =>
      exfalso
      have := (sortByB_eq_nil _).mp hs
      rw [tsNames, this] at hm
      simp [nsOf] at hm
    | cons hd olds =>
      have hh : handle_existing_timestamp_files sub archive =
          olds.foldl (fun acc nf => (removeA acc.1 nf.1, updateA acc.2 nf.1 nf.2))
            (sub, archive) := by
        simp only [handle_existing_timestamp_files]
        rw [hs]
      have hpw := sortByB_pairwise _ htot htrans (sub.filter (fun f => is_timestamp_file f.1))
      rw [hs] at hpw
      obtain ⟨hdom, _⟩ := List.pairwise_cons.mp hpw
      have hsortednodup : (nsOf (hd :: olds)).Nodup := by
        have hmapperm : (nsOf (sortByB (fun p q : String × FileInfo => nameLe q.1 p.1)
            (sub.filter (fun f => is_timestamp_file f.1)))).Perm
              (nsOf (sub.filter (fun f => is_timestamp_file f.1))) := hperm.map _
        rw [hs] at hmapperm
        exact hmapperm.nodup_iff.mpr htsnodup
      simp only [nsOf, List.map_cons, List.nodup_cons] at hsortednodup
      obtain ⟨hhdnotin, holdsnodup⟩ := hsortednodup
      have holds_ts : ∀ q ∈ olds, is_timestamp_file q.1 = true := by
        intro q hq
        have hqs : q ∈ sub.filter (fun f => is_timestamp_file f.1) := by
          apply hperm.mem_iff.mp
          rw [hs]
          exact List.mem_cons_of_mem hd hq
        exact by simpa using (List.mem_filter.mp hqs).2
      have hhdmem : hd ∈ sub.filter (fun f => is_timestamp_file f.1) := by
        apply hperm.mem_iff.mp
        rw [hs]
        exact List.mem_cons_self hd olds
      have hhd : hd.1 = m := by
        obtain ⟨pm, hpm, hpm1⟩ := List.mem_map.mp hm
        have hpmsorted : pm ∈ hd :: olds := by
          rw [← hs]
          exact hperm.symm.mem_iff.mp hpm
        rcases List.mem_cons.mp hpmsorted with rfl | hpmolds
        · exact hpm1
        · have h1 : nameLe pm.1 hd.1 = true := hdom pm hpmolds
          have h2 : nameLe hd.1 m = true := by
            apply hmax
            exact List.mem_map.mpr ⟨hd, hhdmem, rfl⟩
          rw [hpm1] at h1
          exact (nameLe_antisymm hd.1 m h2 h1).symm ▸ rfl
      refine ⟨?_, ?_, ?_⟩
      · intro p hp hcond
        rw [hh, moveFold_fst_mem]
        refine ⟨hp, ?_⟩
        intro hin
        obtain ⟨q, hq, hq1⟩ := List.mem_map.mp hin
        rcases hcond with hnts | hpm
        · have hqts : is_timestamp_file p.1 = true := hq1 ▸ holds_ts q hq
          rw [hqts] at hnts
          simp at hnts
        · apply hhdnotin
          have hq1m : q.1 = hd.1 := by rw [hq1, hpm, hhd]
          rw [← hq1m]
          exact List.mem_map.mpr ⟨q, hq, rfl⟩
      · intro p hp
        rw [hh] at hp
        exact ((moveFold_fst_mem olds sub archive p).mp hp).1
      · intro p hp hts hne
        have hptsps : p ∈ sub.filter (fun f => is_timestamp_file f.1) :=
          List.mem_filter.mpr ⟨hp, by simpa using hts⟩
        have hpsorted : p ∈ hd :: olds := by
          rw [← hs]
          exact hperm.symm.mem_iff.mp hptsps
        have hpolds : p ∈ olds := by
          rcases List.mem_cons.mp hpsorted with rfl | h
          · exact absurd hhd hne
          · exact h
        constructor
        · rw [hh]
          intro hin
          obtain ⟨q, hq, hq1⟩ := List.mem_map.mp hin
          have hq2 := (moveFold_fst_mem olds sub archive q).mp hq
          apply hq2.2
          rw [hq1]
          exact List.mem_map.mpr ⟨p, hpolds, rfl⟩
        · rw [hh]
          exact moveFold_snd_lookup olds sub archive holdsnodup p hpolds
  · cases hs : sortByB (fun p q : String × FileInfo => nameLe q.1 p.1)
        (sub.filter (fun f => is_timestamp_file f.1)) with
    | nil =>
      have hshort : handle_existing_timestamp_files sub archive = (sub, archive) := by
        simp only [handle_existing_timestamp_files]
        rw [hs]
      rw [hshort]
      simp only [handle_existing_timestamp_files]
      rw [hs]
    | cons hd olds =>
      have hh : handle_existing_timestamp_files sub archive =
          olds.foldl (fun acc nf => (removeA acc.1 nf.1, updateA acc.2 nf.1 nf.2))
            (sub, archive) := by
        simp only [handle_existing_timestamp_files]
        rw [hs]
      have hsortednodup : (nsOf (hd :: olds)).Nodup := by
        have hmapperm : (nsOf (sortByB (fun p q : String × FileInfo => nameLe q.1 p.1)
            (sub.filter (fun f => is_timestamp_file f.1)))).Perm
              (nsOf (sub.filter (fun f => is_timestamp_file f.1))) := hperm.map _
        rw [hs] at hmapperm
        exact hmapperm.nodup_iff.mpr htsnodup
      simp only [nsOf, List.map_cons, List.nodup_cons] at hsortednodup
      obtain ⟨hhdnotin, _⟩ := hsortednodup
      have hfinsub : ((handle_existing_timestamp_files sub archive).1).Sublist sub := by
        rw [hh]
        exact moveFold_sublist olds sub archive
      have hall : ∀ n ∈ tsNames (handle_existing_timestamp_files sub archive).1, n = hd.1 := by
        intro n hn
        obtain ⟨q, hq, hq1⟩ := List.mem_map.mp hn
        have hqts : is_timestamp_file q.1 = true := by
          simpa using (List.mem_filter.mp hq).2
        have hqfin : q ∈ (handle_existing_timestamp_files sub archive).1 :=
          (List.mem_filter.mp hq).1
        rw [hh] at hqfin
        have hq2 := (moveFold_fst_mem olds sub archive q).mp hqfin
        have hqtsps : q ∈ sub.filter (fun f => is_timestamp_file f.1) :=
          List.mem_filter.mpr ⟨hq2.1, by simpa using hqts⟩
        have hqsorted : q ∈ hd :: olds := by
          rw [← hs]
          exact hperm.symm.mem_iff.mp hqtsps
        rcases List.mem_cons.mp hqsorted with rfl | hqolds
        · exact hq1 ▸ rfl
        · exact absurd (List.mem_map.mpr ⟨q, hqolds, rfl⟩) hq2.2
      have hnodupfin : (tsNames (handle_existing_timestamp_files sub archive).1).Nodup := by
        have h1 : (tsNames (handle_existing_timestamp_files sub archive).1).Sublist
            (nsOf (handle_existing_timestamp_files sub archive).1) :=
          (List.filter_sublist _).map _
        have h2 : (nsOf (handle_existing_timestamp_files sub archive).1).Sublist (nsOf sub) :=
          hfinsub.map _
        exact hsub.sublist (h1.trans h2)
      exact handle_short _ _ (length_le_one_of_nodup_of_all_eq hd.1 hnodupfin hall)

/-- C9 witness: the keep-latest theorem applied at a concrete two-snapshot
target — the greater name stays in place. -/
theorem C9_keep_latest_witness :
    ("1.2.3.4.5.6.7.9", fiStale) ∈
      (handle_existing_timestamp_files
        [("1.2.3.4.5.6.7.8", fiStale), ("1.2.3.4.5.6.7.9", fiStale)] []).1 :=
  ((C9_keep_latest [("1.2.3.4.5.6.7.8", fiStale), ("1.2.3.4.5.6.7.9", fiStale)] []
      (by decide)).2.1 "1.2.3.4.5.6.7.9" (by decide) (by decide)).1
    ("1.2.3.4.5.6.7.9", fiStale) (by decide) (Or.inr rfl)

/-! ## C7 — stale drift output is relocated before a new comparison -/

theorem moveExisting_daf_mono (env : Env) (basePath t : String) :
    ∀ (snap : List (String × FileInfo)) (files daf files2 daf2 : Listing) (n : String),
      move_existing_drift_files env basePath t snap files daf = .ok (files2, daf2) →
      n ∈ nsOf daf → n ∈ nsOf daf2 := by
  intro snap
  induction snap with
  | nil =>
    intro files daf files2 daf2 n h hn
    simp only [move_existing_drift_files] at h
    injection h with h2
    injection h2 with hf hd
    rwa [← hd]
  | cons q rest ih =>
    intro files daf files2 daf2 n h hn
    obtain ⟨qn, qf⟩ := q
    simp only [move_existing_drift_files] at h
    by_cases hpre : "drift_".data.isPrefixOf qn.data = true
    · rw [if_pos hpre] at h
      by_cases hio : env.ioFail (pathJoin (pathJoin (pathJoin basePath "drift-detect-archive") t) qn) = true
      · rw [if_pos hio] at h
        exact absurd h (by simp)
      · rw [if_neg hio] at h
        exact ih _ _ _ _ n h (mem_nsOf_updateA.mpr (Or.inl hn))
    · rw [if_neg hpre] at h
      exact ih _ _ _ _ n h hn

theorem moveExisting_ok_spec (env : Env) (basePath t : String) :
    ∀ (snap : List (String × FileInfo)) (files daf files2 daf2 : Listing),
      move_existing_drift_files env basePath t snap files daf = .ok (files2, daf2) →
      (∀ p ∈ files2, p ∈ files ∧
        ("drift_".data.isPrefixOf p.1.data = true → p.1 ∉ nsOf snap)) ∧
      (∀ p ∈ snap, "drift_".data.isPrefixOf p.1.data = true → p.1 ∈ nsOf daf2) := by
  intro snap
  induction snap with
  | nil =>
    intro files daf files2 daf2 h
    simp only [move_existing_drift_files] at h
    injection h with h2
    injection h2 with hf hd
    subst hf
    subst hd
    constructor
    · intro p hp
      exact ⟨hp, fun _ => by simp [nsOf]⟩
    · intro p hp
      simp at hp
  | cons q rest ih =>
    intro files daf files2 daf2 h
    obtain ⟨qn, qf⟩ := q
    simp only [move_existing_drift_files] at h
    by_cases hpre : "drift_".data.isPrefixOf qn.data = true
    · rw [if_pos hpre] at h
      by_cases hio : env.ioFail (pathJoin (pathJoin (pathJoin basePath "drift-detect-archive") t) qn) = true
      · rw [if_pos hio] at h
        exact absurd h (by simp)
      · rw [if_neg hio] at h
        obtain ⟨ih1, ih2⟩ := ih _ _ _ _ h
        constructor
        · intro p hp
          obtain ⟨hpm, hpfresh⟩ := ih1 p hp
          obtain ⟨hpfiles, hpne⟩ := mem_removeA.mp hpm
          refine ⟨hpfiles, ?_⟩
          intro hdp
          simp only [nsOf, List.map_cons, List.mem_cons]
          rintro (h1 | h2)
          · exact hpne h1
          · exact hpfresh hdp h2
        · intro p hp hdp
          rcases List.mem_cons.mp hp with heq | hmem
          · rw [heq]
            exact moveExisting_daf_mono env basePath t rest _ _ _ _ qn h
              (mem_nsOf_updateA.mpr (Or.inr rfl))
          · exact ih2 p hmem hdp
    · rw [if_neg hpre] at h
      obtain ⟨ih1, ih2⟩ := ih _ _ _ _ h
      constructor
      · intro p hp
        obtain ⟨hpm, hpfresh⟩ := ih1 p hp
        refine ⟨hpm, ?_⟩
        intro hdp
        simp only [nsOf, List.map_cons, List.mem_cons]
        rintro (h1 | h2)
        · rw [h1] at hdp
          exact hpre hdp
        · exact hpfresh hdp h2
      · intro p hp hdp
        rcases List.mem_cons.mp hp with heq | hmem
        · rw [heq] at hdp
          exact absurd hdp hpre
        · exact ih2 p hmem hdp

theorem find_new_append (files new : Listing) (nf : String × FileInfo)
    (hclean : ∀ p ∈ files, "drift_".data.isPrefixOf p.1.data = false)
    (h : find_new_drift_file (files ++ new) = some nf) : nf ∈ new := by
  induction files with
  | nil =>
    simp only [List.nil_append, find_new_drift_file] at h
    exact List.mem_of_find?_eq_some h
  | cons p rest ih =>
    simp only [find_new_drift_file, List.cons_append, List.find?_cons] at h
    have hp : "drift_".data.isPrefixOf p.1.data = false := hclean p (by simp)
    rw [hp] at h
    simp only [Bool.false_and] at h
    exact ih (fun q hq => hclean q (List.mem_cons_of_mem p hq)) h

theorem processArch_cd (env : Env) (basePath t : String) (cdata : Report) (st : St)
    (res : Bool × Report × St)
    (h : process_archive_subfolder env basePath t cdata st = .ok res) :
    res.2.1 = cdata ∨
      ∃ nf ∈ env.analyzerFiles t, ∃ j, nf.2.content = some j ∧ nf.2.recent = true ∧
        "drift_".data.isPrefixOf nf.1.data = true ∧
        res.2.1 = updateA cdata t (.drift j) := by
  unfold process_archive_subfolder at h
  cases hl : lookupA st.fs.archive t with
  | none =>
    simp only [hl] at h
    exact absurd h (by simp)
  | some e =>
    simp only [hl] at h
    cases e with
    | stray => exact absurd h (by simp)
    | dir a =>
      cases hts : get_timestamp_files a.files with
      | nil =>
        simp only [hts] at h
        injection h with h2
        rw [← h2]
        exact Or.inl rfl
      | cons s1 ts1 =>
        cases ts1 with
        | nil =>
          simp only [hts] at h
          injection h with h2
          rw [← h2]
          exact Or.inl rfl
        | cons s2 ts2 =>
          cases ts2 with
          | cons s3 ts3 =>
            simp only [hts] at h
            injection h with h2
            rw [← h2]
            exact Or.inl rfl
          | nil =>
            simp only [hts] at h
            cases hmv : move_existing_drift_files env basePath t a.files a.files
                a.driftArchiveFiles with
            | error e2 =>
              simp only [hmv] at h
              exact absurd h (by simp)
            | ok pr =>
              obtain ⟨files2, daf2⟩ := pr
              simp only [hmv] at h
              by_cases hok : env.analyzerOk (cartographyCmd s1 s2) = true
              · simp only [hok, if_true] at h
                cases hfind : find_new_drift_file (files2 ++ env.analyzerFiles t) with
                | none =>
                  simp only [hfind] at h
                  injection h with h2
                  rw [← h2]
                  exact Or.inl rfl
                | some nf =>
                  simp only [hfind] at h
                  cases hcont : nf.2.content with
                  | none =>
                    simp only [hcont] at h
                    injection h with h2
                    rw [← h2]
                    exact Or.inl rfl
                  | some j =>
                    simp only [hcont] at h
                    injection h with h2
                    rw [← h2]
                    have hfind2 : List.find?
                        (fun f => "drift_".data.isPrefixOf f.1.data && f.2.recent)
                        (files2 ++ env.analyzerFiles t) = some nf := hfind
                    have hpred := List.find?_some hfind2
                    simp only [Bool.and_eq_true] at hpred
                    refine Or.inr ⟨nf, ?_, j, hcont, ?_, ?_, rfl⟩
                    · apply find_new_append files2 (env.analyzerFiles t) nf ?_ hfind
                      intro p hp
                      obtain ⟨spec1, _⟩ := moveExisting_ok_spec env basePath t a.files
                        a.files a.driftArchiveFiles files2 daf2 hmv
                      obtain ⟨hpfiles, hpfresh⟩ := spec1 p hp
                      by_contra hcp
                      have hcp2 : "drift_".data.isPrefixOf p.1.data = true := by
                        simpa using hcp
                      exact hpfresh hcp2 (List.mem_map.mpr ⟨p, hpfiles, rfl⟩)
                    · exact hpred.2
                    · exact hpred.1
              · simp only [hok, if_false] at h
                injection h with h2
                rw [← h2]
                exact Or.inl rfl

/-- C7: pre-existing `drift_`-prefixed files are relocated out of the
working listing into the `drift_archive` listing before the new comparison —
after a successful `move_existing_drift_files` no `drift_`-prefixed name of
the walked snapshot remains and each such file is present in the
`drift_archive` listing; a new-output search over the cleaned listing plus
the analyzer output can only return a file the analyzer wrote this run; one
`process_archive_subfolder` call therefore either leaves the consolidated
data unchanged or adds exactly one drift record for its target whose payload
and recency come from a file the analyzer wrote; and `updateA` keeps the
report keys duplicate-free, so at most one record per target exists. -/
theorem C7_no_stale_output (env : Env) (basePath t : String) :
    (∀ (snap : List (String × FileInfo)) (files daf files2 daf2 : Listing),
      move_existing_drift_files env basePath t snap files daf = .ok (files2, daf2) →
      (∀ p ∈ files2, p ∈ files ∧
        ("drift_".data.isPrefixOf p.1.data = true → p.1 ∉ nsOf snap)) ∧
      (∀ p ∈ snap, "drift_".data.isPrefixOf p.1.data = true → p.1 ∈ nsOf daf2)) ∧
    (∀ (files new : Listing) (nf : String × FileInfo),
      (∀ p ∈ files, "drift_".data.isPrefixOf p.1.data = false) →
      find_new_drift_file (files ++ new) = some nf → nf ∈ new) ∧
    (∀ (cdata : Report) (st : St) (res : Bool × Report × St),
      process_archive_subfolder env basePath t cdata st = .ok res →
      res.2.1 = cdata ∨
        ∃ nf ∈ env.analyzerFiles t, ∃ j, nf.2.content = some j ∧ nf.2.recent = true ∧
          "drift_".data.isPrefixOf nf.1.data = true ∧
          res.2.1 = updateA cdata t (.drift j)) ∧
    (∀ (cdata : Report) (k : String) (v : RVal),
      namesNodup cdata → namesNodup (updateA cdata k v)) :=
  ⟨moveExisting_ok_spec env basePath t,
   fun files new nf hclean h => find_new_append files new nf hclean h,
   fun cdata st res h => processArch_cd env basePath t cdata st res h,
   fun cdata k v h => nodup_updateA k v h⟩

/-- C7 witness: the new-output search applied over a concrete cleaned
listing returns the analyzer-written file. -/
theorem C7_no_stale_output_witness :
    ("drift_new.json", (⟨true, some "D"⟩ : FileInfo)) ∈
      ([("drift_new.json", (⟨true, some "D"⟩ : FileInfo))] : Listing) :=
  (C7_no_stale_output envOk "base" "svc").2.1
    [("old.json", fiStale)] [("drift_new.json", ⟨true, some "D"⟩)]
    ("drift_new.json", ⟨true, some "D"⟩) (by decide) (by decide)

/-! ## Name-set lemmas for the selection characterization -/

theorem tsNames_eq_filter (files : Listing) :
    tsNames files = (nsOf files).filter (fun n => is_timestamp_file n) := by
  induction files with
  | nil => rfl
  | cons p rest ih =>
    by_cases h : is_timestamp_file p.1 = true <;>
      simp [tsNames, nsOf, List.filter_cons, h] at ih ⊢ <;> exact ih

theorem tsNames_nodup (files : Listing) (h : namesNodup files) : (tsNames files).Nodup := by
  rw [tsNames_eq_filter]
  exact h.filter _

theorem mem_addNew {ns : List String} {n x : String} :
    x ∈ addNew ns n ↔ x ∈ ns ∨ x = n := by
  unfold addNew
  by_cases h : n ∈ ns
  · rw [if_pos h]
    constructor
    · exact Or.inl
    · rintro (hm | rfl)
      · exact hm
      · exact h
  · rw [if_neg h]
    simp

theorem nodup_addNew {ns : List String} (n : String) (h : ns.Nodup) : (addNew ns n).Nodup := by
  unfold addNew
  by_cases hm : n ∈ ns
  · rwa [if_pos hm]
  · rw [if_neg hm]
    refine List.Nodup.append h (List.nodup_singleton n) ?_
    intro a ha hn
    rw [List.mem_singleton] at hn
    subst hn
    exact hm ha

theorem mem_unionNames {ms : List String} :
    ∀ {ns : List String} {x : String}, x ∈ unionNames ns ms ↔ x ∈ ns ∨ x ∈ ms := by
  induction ms with
  | nil =>
    intro ns x
    simp [unionNames]
  | cons m rest ih =>
    intro ns x
    rw [show unionNames ns (m :: rest) = unionNames (addNew ns m) rest from rfl, ih]
    rw [mem_addNew]
    simp only [List.mem_cons]
    constructor
    · rintro ((h1 | h2) | h3)
      · exact Or.inl h1
      · exact Or.inr (Or.inl h2)
      · exact Or.inr (Or.inr h3)
    · rintro (h1 | h2 | h3)
      · exact Or.inl (Or.inl h1)
      · exact Or.inl (Or.inr h2)
      · exact Or.inr h3

theorem nodup_unionNames {ms : List String} :
    ∀ {ns : List String}, ns.Nodup → (unionNames ns ms).Nodup := by
  induction ms with
  | nil =>
    intro ns h
    exact h
  | cons m rest ih =>
    intro ns h
    exact ih (nodup_addNew m h)

theorem unionNames_length_of_perm {ns ms ms2 : List String}
    (hns : ns.Nodup) (hp : ms.Perm ms2) :
    (unionNames ns ms).length = (unionNames ns ms2).length := by
  have h1 : (unionNames ns ms).Nodup := nodup_unionNames hns
  have h2 : (unionNames ns ms2).Nodup := nodup_unionNames hns
  have hperm : (unionNames ns ms).Perm (unionNames ns ms2) := by
    rw [List.perm_ext_iff_of_nodup h1 h2]
    intro a
    rw [mem_unionNames, mem_unionNames, hp.mem_iff]
  exact hperm.length_eq

theorem tsNames_updateA (files : Listing) (n : String) (fi : FileInfo)
    (hts : is_timestamp_file n = true) :
    tsNames (updateA files n fi) = addNew (tsNames files) n := by
  rw [tsNames_eq_filter, tsNames_eq_filter, nsOf_updateA]
  by_cases h : n ∈ nsOf files
  · rw [if_pos h]
    unfold addNew
    rw [if_pos (List.mem_filter.mpr ⟨h, hts⟩)]
  · rw [if_neg h, List.filter_append]
    unfold addNew
    rw [if_neg (fun hm => h (List.mem_filter.mp hm).1)]
    simp [hts]

theorem nodup_eq_of_name {α : Type} {l : List (String × α)} (h : (nsOf l).Nodup)
    {p q : String × α} (hp : p ∈ l) (hq : q ∈ l) (hname : p.1 = q.1) : p = q := by
  induction l with
  | nil => simp at hp
  | cons r rest ih =>
    simp only [nsOf, List.map_cons, List.nodup_cons] at h
    rcases List.mem_cons.mp hp with rfl | hp2
    · rcases List.mem_cons.mp hq with rfl | hq2
      · rfl
      · exfalso
        apply h.1
        rw [hname]
        exact List.mem_map.mpr ⟨q, hq2, rfl⟩
    · rcases List.mem_cons.mp hq with rfl | hq2
      · exfalso
        apply h.1
        rw [← hname]
        exact List.mem_map.mpr ⟨p, hp2, rfl⟩
      · exact ih h.2 hp2 hq2

theorem get_timestamp_files_isEmpty_iff (files : Listing) :
    (get_timestamp_files files).isEmpty = true ↔ tsNames files = [] := by
  rw [List.isEmpty_iff, get_timestamp_files, sortByB_eq_nil]

theorem get_timestamp_files_length (files : Listing) :
    (get_timestamp_files files).length = (tsNames files).length := by
  rw [get_timestamp_files, sortByB_length]

theorem lookupA_isSome_of_mem {α : Type} {l : List (String × α)} {n : String}
    (h : n ∈ nsOf l) : ∃ v, lookupA l n = some v := by
  cases hv : lookupA l n with
  | some v => exact ⟨v, rfl⟩
  | none => exact absurd h (lookupA_eq_none_iff.mp hv)

theorem nsOf_dirTargets_sublist (listing : List (String × DDEntry)) :
    (nsOf (dirTargets listing)).Sublist (nsOf listing) := by
  induction listing with
  | nil => simp [dirTargets, nsOf]
  | cons p rest ih =>
    obtain ⟨n, e⟩ := p
    cases e with
    | dir d =>
      rw [show dirTargets ((n, DDEntry.dir d) :: rest) = (n, d) :: dirTargets rest from rfl]
      exact ih.cons₂ n
    | stray =>
      rw [show dirTargets ((n, DDEntry.stray) :: rest) = dirTargets rest from rfl]
      exact ih.cons n

/-! ## Stage-1 characterization: which targets are selected -/

theorem ensure_lookup_ne (fs : BaseFS) (t u : String) (h : u ≠ t) :
    lookupA (ensure_subfolder_in_archive fs t).archive u = lookupA fs.archive u := by
  unfold ensure_subfolder_in_archive
  cases hl : lookupA fs.archive t with
  | some e => simp only [hl]
  | none =>
    simp only [hl]
    exact lookupA_updateA_ne fs.archive _ (fun he => h he.symm)

theorem copyTs_stray (env : Env) (basePath t : String) (src : Listing)
    (n : String) (rest : List String) (fs : BaseFS)
    (h : lookupA fs.archive t = some ArchEntry.stray) :
    ∀ fs2, copyTsFiles env basePath t src (n :: rest) fs ≠ .ok fs2 := by
  intro fs2 hc
  unfold copyTsFiles at hc
  by_cases hio : env.ioFail (pathJoin (pathJoin (pathJoin basePath "drift-detect") t) n) = true
  · simp [hio] at hc
  · cases hsrc : lookupA src n with
    | none => simp [hio, hsrc] at hc
    | some fi => simp [hio, hsrc, h] at hc

theorem copyTs_ok (env : Env) (basePath t : String) (src : Listing) :
    ∀ (ns : List String) (fs fs2 : BaseFS) (a : ArchDir),
      lookupA fs.archive t = some (ArchEntry.dir a) →
      (∀ m ∈ ns, is_timestamp_file m = true) →
      copyTsFiles env basePath t src ns fs = .ok fs2 →
      (∀ u, u ≠ t → lookupA fs2.archive u = lookupA fs.archive u) ∧
      ∃ a2, lookupA fs2.archive t = some (ArchEntry.dir a2) ∧
        tsNames a2.files = unionNames (tsNames a.files) ns ∧
        (namesNodup a.files → namesNodup a2.files) := by
  intro ns
  induction ns with
  | nil =>
    intro fs fs2 a ha hts h
    simp only [copyTsFiles] at h
    injection h with h2
    subst h2
    exact ⟨fun u hu => rfl, a, ha, rfl, fun hn => hn⟩
  | cons n rest ih =>
    intro fs fs2 a ha hts h
    simp only [copyTsFiles] at h
    by_cases hio : env.ioFail (pathJoin (pathJoin (pathJoin basePath "drift-detect") t) n) = true
    · simp [hio] at h
    · rw [if_neg hio] at h
      cases hsrc : lookupA src n with
      | none => simp [hsrc] at h
      | some fi =>
        simp only [hsrc, ha] at h
        obtain ⟨ih1, a2, ha2, htseq, hnod⟩ :=
          ih _ fs2 { a with files := updateA a.files n fi }
            (lookupA_updateA_self fs.archive t _)
            (fun m hm => hts m (List.mem_cons_of_mem n hm)) h
        refine ⟨?_, a2, ha2, ?_, ?_⟩
        · intro u hu
          rw [ih1 u hu]
          exact lookupA_updateA_ne fs.archive _ (fun he => hu he.symm)
        · rw [htseq, tsNames_updateA a.files n fi (hts n (List.mem_cons_self n rest))]
          rfl
        · intro hnodup
          exact hnod (nodup_updateA n fi hnodup)

theorem qualifies_eq_true_iff (fs : BaseFS) (t : String) (d : TargetDir) :
    qualifies fs (t, d) = true ↔
      tsNames d.files ≠ [] ∧
        (unionNames (tsNames (archFiles fs t)) (tsNames d.files)).length = 2 := by
  unfold qualifies
  rw [Bool.and_eq_true, Bool.not_eq_true']
  constructor
  · rintro ⟨h1, h2⟩
    refine ⟨?_, by simpa using h2⟩
    intro hnil
    rw [hnil] at h1
    simp at h1
  · rintro ⟨h1, h2⟩
    refine ⟨?_, by simpa using h2⟩
    cases htn : tsNames d.files with
    | nil => exact absurd htn h1
    | cons x xs => rfl

theorem retained_ne_two_not_qualifies (fs : BaseFS) (p : String × TargetDir)
    (h : retainedCount fs p ≠ 2) : qualifies fs p = false := by
  obtain ⟨t, d⟩ := p
  unfold retainedCount at h
  by_cases hts : (tsNames d.files).isEmpty = true
  · have htn : tsNames d.files = [] := List.isEmpty_iff.mp hts
    unfold qualifies
    simp [htn]
  · rw [if_neg hts] at h
    cases hq : qualifies fs (t, d) with
    | false => rfl
    | true =>
      obtain ⟨_, h2⟩ := (qualifies_eq_true_iff fs t d).mp hq
      exact absurd h2 h

theorem processDD_ok_spec (env : Env) (basePath : String) :
    ∀ (es : List (String × DDEntry)) (fs : BaseFS) (acc sel : List String) (fs2 : BaseFS),
      (nsOf es).Nodup →
      (∀ u a, lookupA fs.archive u = some (ArchEntry.dir a) → namesNodup a.files) →
      processDD env basePath es fs acc = .ok (sel, fs2) →
      sel = acc ++ nsOf ((dirTargets es).filter (fun p => qualifies fs p)) := by
  intro es
  induction es with
  | nil =>
    intro fs acc sel fs2 hnd harch h
    simp only [processDD] at h
    injection h with h2
    injection h2 with ha hb
    subst ha
    simp [dirTargets, nsOf]
  | cons p rest ih =>
    intro fs acc sel fs2 hnd harch h
    obtain ⟨t, e⟩ := p
    simp only [nsOf, List.map_cons, List.nodup_cons] at hnd
    cases e with
    | stray =>
      rw [show processDD env basePath ((t, DDEntry.stray) :: rest) fs acc =
          processDD env basePath rest fs acc from rfl] at h
      rw [show dirTargets ((t, DDEntry.stray) :: rest) = dirTargets rest from rfl]
      exact ih fs acc sel fs2 hnd.2 harch h
    | dir d =>
      simp only [processDD] at h
      rw [show dirTargets ((t, DDEntry.dir d) :: rest) = (t, d) :: dirTargets rest from rfl]
      by_cases hte : (get_timestamp_files d.files).isEmpty = true
      · rw [if_pos hte] at h
        have hqf : qualifies fs (t, d) = false := by
          have htn : tsNames d.files = [] := (get_timestamp_files_isEmpty_iff d.files).mp hte
          unfold qualifies
          simp [htn]
        rw [List.filter_cons_of_neg (by simp [hqf])]
        exact ih fs acc sel fs2 hnd.2 harch h
      · rw [if_neg hte] at h
        have htsall : ∀ m ∈ get_timestamp_files d.files, is_timestamp_file m = true := by
          intro m hm
          rw [get_timestamp_files, mem_sortByB, tsNames_eq_filter] at hm
          exact (List.mem_filter.mp hm).2
        cases hcp : copyTsFiles env basePath t d.files (get_timestamp_files d.files)
            (ensure_subfolder_in_archive fs t) with
        | error e2 =>
          simp only [hcp] at h
          exact absurd h (by simp)
        | ok fsx =>
          simp only [hcp] at h
          -- identify the archive directory at t before the copies
          have hmain : ∃ a1, lookupA (ensure_subfolder_in_archive fs t).archive t =
              some (ArchEntry.dir a1) ∧ a1.files = archFiles fs t := by
            cases harcht : lookupA fs.archive t with
            | none =>
              refine ⟨⟨[], false, []⟩, ?_, ?_⟩
              · unfold ensure_subfolder_in_archive
                simp only [harcht]
                exact lookupA_updateA_self fs.archive t _
              · unfold archFiles
                rw [harcht]
            | some entry =>
              cases entry with
              | dir a =>
                refine ⟨a, ?_, ?_⟩
                · unfold ensure_subfolder_in_archive
                  simp only [harcht]
                · unfold archFiles
                  rw [harcht]
              | stray =>
                exfalso
                have hens : lookupA (ensure_subfolder_in_archive fs t).archive t =
                    some ArchEntry.stray := by
                  unfold ensure_subfolder_in_archive
                  simp only [harcht]
                cases hns : get_timestamp_files d.files with
                | nil => rw [hns] at hte; exact hte rfl
                | cons n0 ns0 =>
                  rw [hns] at hcp
                  exact copyTs_stray env basePath t d.files n0 ns0 _ hens fsx hcp
          obtain ⟨a1, hens, ha1files⟩ := hmain
          obtain ⟨hne, a2, ha2, htseq, hnodpres⟩ :=
            copyTs_ok env basePath t d.files (get_timestamp_files d.files)
              (ensure_subfolder_in_archive fs t) fsx a1 hens htsall hcp
          have harchx : archFiles fsx t = a2.files := by
            unfold archFiles
            rw [ha2]
          have hXnodup : (tsNames (archFiles fs t)).Nodup := by
            unfold archFiles
            cases harcht : lookupA fs.archive t with
            | none => simp [tsNames, nsOf]
            | some entry =>
              cases entry with
              | dir a => exact tsNames_nodup a.files (harch t a harcht)
              | stray => simp [tsNames, nsOf]
          have hcounteq : (get_timestamp_files (archFiles fsx t)).length =
              (unionNames (tsNames (archFiles fs t)) (tsNames d.files)).length := by
            rw [get_timestamp_files_length, harchx, htseq, ha1files]
            exact unionNames_length_of_perm hXnodup (sortByB_perm nameLe (tsNames d.files))
          have harchx_all : ∀ u a3, lookupA fsx.archive u = some (ArchEntry.dir a3) →
              namesNodup a3.files := by
            intro u a3 hu
            by_cases hut : u = t
            · subst hut
              rw [ha2] at hu
              injection hu with hu2
              injection hu2 with hu3
              subst hu3
              apply hnodpres
              rw [ha1files]
              unfold archFiles
              cases harcht : lookupA fs.archive u with
              | none => exact List.nodup_nil
              | some entry =>
                cases entry with
                | dir a => exact harch u a harcht
                | stray => exact List.nodup_nil
            · rw [hne u hut, ensure_lookup_ne fs t u hut] at hu
              exact harch u a3 hu
          have hlookfsx : ∀ q ∈ dirTargets rest, qualifies fsx q = qualifies fs q := by
            intro q hq
            have hqt : q.1 ≠ t := by
              intro hqt
              apply hnd.1
              have : q.1 ∈ nsOf (dirTargets rest) := List.mem_map.mpr ⟨q, hq, rfl⟩
              have := (nsOf_dirTargets_sublist rest).mem this
              rwa [hqt] at this
            have : archFiles fsx q.1 = archFiles fs q.1 := by
              unfold archFiles
              rw [hne q.1 hqt, ensure_lookup_ne fs t q.1 hqt]
            unfold qualifies
            rw [this]
          have hfiltereq : (dirTargets rest).filter (fun q => qualifies fsx q) =
              (dirTargets rest).filter (fun q => qualifies fs q) :=
            List.filter_congr (fun q hq => by rw [hlookfsx q hq])
          by_cases hcount : (get_timestamp_files (archFiles fsx t)).length = 2
          · rw [if_pos hcount] at h
            have hqt : qualifies fs (t, d) = true := by
              rw [qualifies_eq_true_iff]
              refine ⟨?_, by rw [← hcounteq]; exact hcount⟩
              intro htn
              exact hte ((get_timestamp_files_isEmpty_iff d.files).mpr htn)
            have := ih fsx (acc ++ [t]) sel fs2 hnd.2 harchx_all h
            rw [this, hfiltereq, List.filter_cons_of_pos (by simp [hqt])]
            simp [nsOf, List.append_assoc]
          · rw [if_neg hcount] at h
            have hqt : qualifies fs (t, d) = false := by
              cases hq : qualifies fs (t, d) with
              | false => rfl
              | true =>
                obtain ⟨_, h2⟩ := (qualifies_eq_true_iff fs t d).mp hq
                rw [← hcounteq] at h2
                exact absurd h2 hcount
            have := ih fsx acc sel fs2 hnd.2 harchx_all h
            rw [this, hfiltereq, List.filter_cons_of_neg (by simp [hqt])]

/-! ## Stage-2: the archive-processing loop -/

theorem processArch_invoked (env : Env) (basePath t : String) (cdata : Report) (st : St)
    (res : Bool × Report × St)
    (h : process_archive_subfolder env basePath t cdata st = .ok res) :
    ∀ u cmd, (u, cmd) ∈ res.2.2.invoked → (u, cmd) ∈ st.invoked ∨ u = t := by
  unfold process_archive_subfolder at h
  cases hl : lookupA st.fs.archive t with
  | none =>
    simp only [hl] at h
    exact absurd h (by simp)
  | some e =>
    simp only [hl] at h
    cases e with
    | stray => exact absurd h (by simp)
    | dir a =>
      cases hts : get_timestamp_files a.files with
      | nil =>
        simp only [hts] at h
        injection h with h2
        rw [← h2]
        exact fun u cmd hm => Or.inl hm
      | cons s1 ts1 =>
        cases ts1 with
        | nil =>
          simp only [hts] at h
          injection h with h2
          rw [← h2]
          exact fun u cmd hm => Or.inl hm
        | cons s2 ts2 =>
          cases ts2 with
          | cons s3 ts3 =>
            simp only [hts] at h
            injection h with h2
            rw [← h2]
            exact fun u cmd hm => Or.inl hm
          | nil =>
            simp only [hts] at h
            cases hmv : move_existing_drift_files env basePath t a.files a.files
                a.driftArchiveFiles with
            | error e2 =>
              simp only [hmv] at h
              exact absurd h (by simp)
            | ok pr =>
              obtain ⟨files2, daf2⟩ := pr
              simp only [hmv] at h
              have hinv : ∀ res2 : Bool × Report × St,
                  res2.2.2.invoked = st.invoked ++ [(t, cartographyCmd s1 s2)] →
                  ∀ u cmd, (u, cmd) ∈ res2.2.2.invoked → (u, cmd) ∈ st.invoked ∨ u = t := by
                intro res2 heq u cmd hm
                rw [heq] at hm
                rcases List.mem_append.mp hm with h1 | h1
                · exact Or.inl h1
                · rw [List.mem_singleton] at h1
                  injection h1 with e1 e2
                  exact Or.inr e1
              by_cases hok : env.analyzerOk (cartographyCmd s1 s2) = true
              · simp only [hok, if_true] at h
                cases hfind : find_new_drift_file (files2 ++ env.analyzerFiles t) with
                | none =>
                  simp only [hfind] at h
                  injection h with h2
                  exact hinv res (by rw [← h2])
                | some nf =>
                  simp only [hfind] at h
                  cases hcont : nf.2.content with
                  | none =>
                    simp only [hcont] at h
                    injection h with h2
                    exact hinv res (by rw [← h2])
                  | some j =>
                    simp only [hcont] at h
                    injection h with h2
                    exact hinv res (by rw [← h2])
              · simp only [hok, if_false] at h
                injection h with h2
                exact hinv res (by rw [← h2])

theorem processSelected_spec (env : Env) (basePath : String) :
    ∀ (sel : List String) (cdata : Report) (st : St) (n : Nat)
      (cdata2 : Report) (st2 : St) (n2 : Nat),
      processSelected env basePath sel cdata st n = .ok (cdata2, st2, n2) →
      (∀ u, u ∉ sel → lookupA cdata2 u = lookupA cdata u) ∧
      (∀ u cmd, (u, cmd) ∈ st2.invoked → (u, cmd) ∈ st.invoked ∨ u ∈ sel) ∧
      n2 ≤ n + sel.length := by
  intro sel
  induction sel with
  | nil =>
    intro cdata st n cdata2 st2 n2 h
    simp only [processSelected] at h
    injection h with h2
    injection h2 with ha hb
    injection hb with hb1 hb2
    subst ha
    subst hb1
    subst hb2
    exact ⟨fun u _ => rfl, fun u cmd hm => Or.inl hm, by omega⟩
  | cons t rest ih =>
    intro cdata st n cdata2 st2 n2 h
    simp only [processSelected] at h
    cases hpa : process_archive_subfolder env basePath t cdata st with
    | error e =>
      simp only [hpa] at h
      exact absurd h (by simp)
    | ok res =>
      obtain ⟨b, cd1, st1⟩ := res
      simp only [hpa] at h
      obtain ⟨ih1, ih2, ih3⟩ := ih cd1 st1 (if b then n + 1 else n) cdata2 st2 n2 h
      refine ⟨?_, ?_, ?_⟩
      · intro u hu
        have hut : u ≠ t := fun he => hu (he ▸ List.mem_cons_self t rest)
        have hur : u ∉ rest := fun hr => hu (List.mem_cons_of_mem t hr)
        rw [ih1 u hur]
        rcases processArch_cd env basePath t cdata st (b, cd1, st1) hpa with
          hsame | ⟨nf, _, j, _, _, _, hupd⟩
        · rw [show cd1 = cdata from hsame]
        · rw [show cd1 = updateA cdata t (RVal.drift j) from hupd]
          exact lookupA_updateA_ne cdata _ (fun he => hut he.symm)
      · intro u cmd hm
        rcases ih2 u cmd hm with hin | hinrest
        · rcases processArch_invoked env basePath t cdata st (b, cd1, st1) hpa u cmd hin with
            h1 | h1
          · exact Or.inl h1
          · exact Or.inr (h1 ▸ List.mem_cons_self t rest)
        · exact Or.inr (List.mem_cons_of_mem t hinrest)
      · have : (if b then n + 1 else n) ≤ n + 1 := by cases b <;> simp
        calc n2 ≤ (if b then n + 1 else n) + rest.length := ih3
          _ ≤ n + 1 + rest.length := Nat.add_le_add_right this rest.length
          _ = n + (t :: rest).length := by simp [List.length_cons]; omega

/-! ## Run-level characterization -/

theorem run_ok_spec (env : Env) (basePath : String) (fs : BaseFS) (report : Report) (st : St)
    (hdd : (nsOf fs.driftDetect).Nodup)
    (harch : ∀ u a, lookupA fs.archive u = some (ArchEntry.dir a) → namesNodup a.files)
    (h : run_get_drift env basePath fs = .ok (report, st)) :
    (selChar fs = [] → report = [] ∧ st.invoked = []) ∧
    (selChar fs ≠ [] →
      ∃ cdata w, report = updateA cdata "_metadata"
          (RVal.meta env.now basePath (selChar fs).length w) ∧
        w ≤ (selChar fs).length ∧
        (∀ u, u ∉ selChar fs → lookupA cdata u = none) ∧
        (∀ u cmd, (u, cmd) ∈ st.invoked → u ∈ selChar fs)) := by
  unfold run_get_drift at h
  cases hc1 : check_drift_detect_folder basePath fs with
  | error e =>
    simp only [hc1] at h
    exact absurd h (by simp)
  | ok s1 =>
    simp only [hc1] at h
    cases hc2 : check_drift_detect_archive_folder basePath fs with
    | error e =>
      simp only [hc2] at h
      exact absurd h (by simp)
    | ok s2 =>
      simp only [hc2] at h
      cases hp : process_drift_detect_subfolders env basePath fs with
      | error e =>
        simp only [hp] at h
        exact absurd h (by simp)
      | ok pr =>
        obtain ⟨sel, fs1⟩ := pr
        simp only [hp] at h
        have hsel : sel = selChar fs := by
          have hspec := processDD_ok_spec env basePath fs.driftDetect fs [] sel fs1
            hdd harch hp
          simpa [selChar] using hspec
        by_cases hempty : sel.isEmpty = true
        · rw [if_pos hempty] at h
          injection h with h2
          injection h2 with ha hb
          have hselnil : selChar fs = [] := by
            rw [← hsel]
            exact List.isEmpty_iff.mp hempty
          constructor
          · intro _
            exact ⟨ha.symm, by rw [← hb]⟩
          · intro hne
            exact absurd hselnil hne
        · rw [if_neg hempty] at h
          cases hps : processSelected env basePath sel [] ⟨fs1, []⟩ 0 with
          | error e =>
            simp only [hps] at h
            exact absurd h (by simp)
          | ok r =>
            obtain ⟨cdata, st1, w⟩ := r
            simp only [hps] at h
            injection h with h2
            injection h2 with ha hb
            obtain ⟨hs1, hs2, hs3⟩ := processSelected_spec env basePath sel [] ⟨fs1, []⟩ 0
              cdata st1 w hps
            constructor
            · intro hselnil
              exfalso
              apply hempty
              rw [List.isEmpty_iff, hsel]
              exact hselnil
            · intro _
              refine ⟨cdata, w, ?_, ?_, ?_, ?_⟩
              · rw [← ha, hsel]
              · rw [← hsel]
                simpa using hs3
              · intro u hu
                rw [hs1 u (by rwa [hsel])]
                rfl
              · intro u cmd hm
                rw [← hb] at hm
                rcases hs2 u cmd hm with h1 | h1
                · simp at h1
                · rwa [hsel] at h1

theorem not_selected_absent (env : Env) (basePath : String) (fs : BaseFS)
    (report : Report) (st : St)
    (hdd : (nsOf fs.driftDetect).Nodup)
    (harch : ∀ u a, lookupA fs.archive u = some (ArchEntry.dir a) → namesNodup a.files)
    (h : run_get_drift env basePath fs = .ok (report, st))
    (p : String × TargetDir) (hp : p ∈ dirTargets fs.driftDetect)
    (hqf : qualifies fs p = false) :
    (∀ j, lookupA report p.1 ≠ some (RVal.drift j)) ∧
    (∀ cmd, (p.1, cmd) ∉ st.invoked) := by
  have hnotin : p.1 ∉ selChar fs := by
    intro hin
    obtain ⟨q, hq, hq1⟩ := List.mem_map.mp hin
    have hqmem := (List.mem_filter.mp hq).1
    have hqq := (List.mem_filter.mp hq).2
    have hdtnodup : (nsOf (dirTargets fs.driftDetect)).Nodup :=
      hdd.sublist (nsOf_dirTargets_sublist _)
    have hqp : q = p := nodup_eq_of_name hdtnodup hqmem hp hq1
    rw [hqp] at hqq
    simp only [hqf] at hqq
    exact absurd hqq (by simp)
  obtain ⟨hR1, hR2⟩ := run_ok_spec env basePath fs report st hdd harch h
  by_cases hsel : selChar fs = []
  · obtain ⟨hrep, hinv⟩ := hR1 hsel
    subst hrep
    constructor
    · intro j hlook
      simp [lookupA] at hlook
    · intro cmd hm
      rw [hinv] at hm
      simp at hm
  · obtain ⟨cdata, w, hrep, hw, hnone, hinv⟩ := hR2 hsel
    constructor
    · intro j hlook
      rw [hrep] at hlook
      by_cases hpm : p.1 = "_metadata"
      · rw [hpm, lookupA_updateA_self] at hlook
        injection hlook with hl2
        cases hl2
      · rw [lookupA_updateA_ne cdata _ (fun he => hpm he.symm)] at hlook
        rw [hnone p.1 hnotin] at hlook
        exact absurd hlook (by simp)
    · intro cmd hm
      exact hnotin (hinv p.1 cmd hm)

/-! ## C3 amended -/

/-- C3 amended: in a normally-returning run the `subfolders_processed` field
of `_metadata` counts exactly the selected targets — those with at least one
timestamp file whose archive subfolder holds exactly two distinct timestamp
names after the copy step — and a target with zero timestamp files is
excluded from that count, absent from the drift-record keys of the report,
and causes no error.  (When no target qualifies, the run returns early with
no `_metadata` at all — see the C5 counterexample.) -/
theorem C3_amended_processed_counts_selected (env : Env) (basePath : String) (fs : BaseFS)
    (report : Report) (st : St)
    (hdd : (nsOf fs.driftDetect).Nodup)
    (harch : ∀ u a, lookupA fs.archive u = some (ArchEntry.dir a) → namesNodup a.files)
    (h : run_get_drift env basePath fs = .ok (report, st)) :
    (∀ g b pr w, lookupA report "_metadata" = some (RVal.meta g b pr w) →
      pr = (selChar fs).length) ∧
    (∀ p ∈ dirTargets fs.driftDetect, tsNames p.2.files = [] →
      ∀ j, lookupA report p.1 ≠ some (RVal.drift j)) := by
  obtain ⟨hR1, hR2⟩ := run_ok_spec env basePath fs report st hdd harch h
  constructor
  · intro g b pr w2 hlook
    by_cases hsel : selChar fs = []
    · obtain ⟨hrep, _⟩ := hR1 hsel
      subst hrep
      simp [lookupA] at hlook
    · obtain ⟨cdata, w, hrep, hw, _, _⟩ := hR2 hsel
      rw [hrep, lookupA_updateA_self] at hlook
      injection hlook with hl2
      injection hl2 with e1 e2 e3 e4
      exact e3.symm
  · intro p hp htn j
    have hqf : qualifies fs p = false := by
      obtain ⟨t, d⟩ := p
      unfold qualifies
      simp only at htn
      simp [htn]
    exact (not_selected_absent env basePath fs report st hdd harch h p hp hqf).1 j

/-- C3 witness: the amended theorem applied to the concrete run with `svc1`
(two snapshots) and `svc2` (none): the reported count equals the number of
selected targets, which is 1. -/
theorem C3_amended_witness : (1 : Nat) = (selChar fsC3).length :=
  (C3_amended_processed_counts_selected envFail "base" fsC3
      (reportOf (run_get_drift envFail "base" fsC3))
      (stOf (run_get_drift envFail "base" fsC3))
      (by decide) (fun u a ha => absurd ha (by simp [fsC3, lookupA]))
      (by rfl)).1 "T" "base" 1 0 (by decide)

/-! ## C4 -/

/-- C4: for every target whose retained (archive-side) snapshot count after
the copy step is not exactly 2, the pairing step never selects it, the
external analyzer is never invoked for it, and its name is absent from the
drift-record (non-metadata) keys of the final report. -/
theorem C4_pairing_requires_two (env : Env) (basePath : String) (fs : BaseFS)
    (report : Report) (st : St)
    (hdd : (nsOf fs.driftDetect).Nodup)
    (harch : ∀ u a, lookupA fs.archive u = some (ArchEntry.dir a) → namesNodup a.files)
    (h : run_get_drift env basePath fs = .ok (report, st)) :
    ∀ p ∈ dirTargets fs.driftDetect, retainedCount fs p ≠ 2 →
      (∀ j, lookupA report p.1 ≠ some (RVal.drift j)) ∧
      (∀ cmd, (p.1, cmd) ∉ st.invoked) :=
  fun p hp hret =>
    not_selected_absent env basePath fs report st hdd harch h p hp
      (retained_ne_two_not_qualifies fs p hret)

/-- C4 witness: applied to the concrete run — `svc2` holds zero snapshots,
so its retained count is 0 and no drift record for it appears. -/
theorem C4_pairing_requires_two_witness :
    lookupA (reportOf (run_get_drift envFail "base" fsC3)) "svc2" ≠
      some (RVal.drift "X") :=
  ((C4_pairing_requires_two envFail "base" fsC3
      (reportOf (run_get_drift envFail "base" fsC3))
      (stOf (run_get_drift envFail "base" fsC3))
      (by decide) (fun u a ha => absurd ha (by simp [fsC3, lookupA]))
      (by rfl)) ("svc2", ⟨[], []⟩) (by decide) (by decide)).1 "X"

/-! ## C5 amended -/

/-- C5 amended: whenever both top-level directories exist, at least one
target qualifies for comparison and the run returns normally, the returned
report carries a `_metadata` entry holding the generation timestamp, the
base path, the selected-target count and a diffed-target count bounded by
it; when no target qualifies the run instead returns an empty report with no
`_metadata` entry (see the C5 counterexample). -/
theorem C5_amended_metadata_present (env : Env) (basePath : String) (fs : BaseFS)
    (report : Report) (st : St)
    (hdd : (nsOf fs.driftDetect).Nodup)
    (harch : ∀ u a, lookupA fs.archive u = some (ArchEntry.dir a) → namesNodup a.files)
    (h : run_get_drift env basePath fs = .ok (report, st))
    (hsel : selChar fs ≠ []) :
    ∃ w, lookupA report "_metadata" =
      some (RVal.meta env.now basePath (selChar fs).length w) ∧
      w ≤ (selChar fs).length := by
  obtain ⟨cdata, w, hrep, hw, _, _⟩ :=
    (run_ok_spec env basePath fs report st hdd harch h).2 hsel
  exact ⟨w, by rw [hrep, lookupA_updateA_self], hw⟩

/-- C5 witness: the amended theorem applied to the concrete run with one
qualifying target. -/
theorem C5_amended_metadata_present_witness :
    ∃ w, lookupA (reportOf (run_get_drift envFail "base" fsC3)) "_metadata" =
      some (RVal.meta "T" "base" (selChar fsC3).length w) ∧
      w ≤ (selChar fsC3).length :=
  C5_amended_metadata_present envFail "base" fsC3
    (reportOf (run_get_drift envFail "base" fsC3))
    (stOf (run_get_drift envFail "base" fsC3))
    (by decide) (fun u a ha => absurd ha (by simp [fsC3, lookupA]))
    (by rfl) (by decide)

/-! ## C8 amended -/

/-- C8 amended: target discovery does not exclude the reserved name — a
directory named `_metadata` is enumerated by `get_subfolders` exactly like
any other directory — and the reserved key of a returned report never holds
a drift record, because the final metadata assignment overwrites whatever
drift record a target of that name produced. -/
theorem C8_amended_no_exclusion (env : Env) (basePath : String) (fs : BaseFS) :
    ("_metadata" ∈ get_subfolders fs.driftDetect ↔
      ∃ d, ("_metadata", DDEntry.dir d) ∈ fs.driftDetect) ∧
    ∀ j, lookupA (reportOf (run_get_drift env basePath fs)) "_metadata" ≠
      some (RVal.drift j) := by
  constructor
  · constructor
    · intro h
      simp only [get_subfolders, nsOf, List.mem_map, List.mem_filter] at h
      obtain ⟨p, ⟨hp, hdir⟩, hname⟩ := h
      obtain ⟨n, e⟩ := p
      cases e with
      | dir d =>
        refine ⟨d, ?_⟩
        simp only at hname
        rwa [hname] at hp
      | stray => simp at hdir
    · rintro ⟨d, hd⟩
      simp only [get_subfolders, nsOf, List.mem_map, List.mem_filter]
      exact ⟨("_metadata", DDEntry.dir d), ⟨hd, rfl⟩, rfl⟩
  · intro j
    unfold reportOf
    cases hrun : run_get_drift env basePath fs with
    | error e => simp [lookupA]
    | ok pr =>
      obtain ⟨report, st⟩ := pr
      unfold run_get_drift at hrun
      cases hc1 : check_drift_detect_folder basePath fs with
      | error e =>
        simp only [hc1] at hrun
        exact absurd hrun (by simp)
      | ok s1 =>
        simp only [hc1] at hrun
        cases hc2 : check_drift_detect_archive_folder basePath fs with
        | error e =>
          simp only [hc2] at hrun
          exact absurd hrun (by simp)
        | ok s2 =>
          simp only [hc2] at hrun
          cases hp : process_drift_detect_subfolders env basePath fs with
          | error e =>
            simp only [hp] at hrun
            exact absurd hrun (by simp)
          | ok pr2 =>
            obtain ⟨sel, fs1⟩ := pr2
            simp only [hp] at hrun
            by_cases hempty : sel.isEmpty = true
            · rw [if_pos hempty] at hrun
              injection hrun with h2
              injection h2 with ha hb
              rw [← ha]
              simp [lookupA]
            · rw [if_neg hempty] at hrun
              cases hps : processSelected env basePath sel [] ⟨fs1, []⟩ 0 with
              | error e =>
                simp only [hps] at hrun
                exact absurd hrun (by simp)
              | ok r =>
                obtain ⟨cdata, st1, w⟩ := r
                simp only [hps] at hrun
                injection hrun with h2
                injection h2 with ha hb
                rw [← ha, lookupA_updateA_self]
                simp

/-- C8 amended witness: a `_metadata` directory is indeed enumerated in the
concrete filesystem that contains one. -/
theorem C8_amended_no_exclusion_witness :
    "_metadata" ∈ get_subfolders fsC8.driftDetect :=
  (C8_amended_no_exclusion envC8 "base" fsC8).1.mpr
    ⟨⟨[("1.2.3.4.5.6.7.8", fiStale), ("1.2.3.4.5.6.7.9", fiStale)], []⟩, by decide⟩

/-! ## C6 — the full characterization of `is_timestamp_file` -/

theorem dropWhile_all_append (p : Char → Bool) (xs r : List Char) (h : xs.all p = true) :
    List.dropWhile p (xs ++ r) = List.dropWhile p r := by
  induction xs with
  | nil => rfl
  | cons c cs ih =>
    simp only [List.all_cons, Bool.and_eq_true] at h
    simp only [List.cons_append, List.dropWhile_cons, h.1, if_true]
    exact ih h.2

theorem dropWhile_head_false (p : Char → Bool) (r : List Char)
    (h : r = [] ∨ ∃ c cs, r = c :: cs ∧ p c = false) :
    List.dropWhile p r = r := by
  rcases h with rfl | ⟨c, cs, rfl, hc⟩
  · rfl
  · simp [List.dropWhile_cons, hc]

theorem plusRun_eq_some (p : Char → Bool) (g r : List Char)
    (hg : g ≠ []) (hall : g.all p = true)
    (hr : r = [] ∨ ∃ c cs, r = c :: cs ∧ p c = false) :
    plusRun p (g ++ r) = some r := by
  cases g with
  | nil => exact absurd rfl hg
  | cons c cs =>
    simp only [List.all_cons, Bool.and_eq_true] at hall
    simp only [List.cons_append, plusRun, hall.1, if_true]
    rw [dropWhile_all_append p cs r hall.2, dropWhile_head_false p r hr]

theorem plusRun_some_spec (p : Char → Bool) (l r : List Char)
    (h : plusRun p l = some r) :
    ∃ g, g ≠ [] ∧ g.all p = true ∧ l = g ++ r := by
  cases l with
  | nil => simp [plusRun] at h
  | cons c cs =>
    simp only [plusRun] at h
    by_cases hc : p c = true
    · rw [if_pos hc] at h
      injection h with h2
      refine ⟨c :: cs.takeWhile p, by simp, ?_, ?_⟩
      · simp only [List.all_cons, Bool.and_eq_true]
        refine ⟨hc, ?_⟩
        rw [List.all_eq_true]
        intro x hx
        exact List.mem_takeWhile_imp hx
      · rw [← h2]
        simp [List.takeWhile_append_dropWhile]
    · rw [if_neg hc] at h
      exact absurd h (by simp)

theorem groupDot_eq_some (g r : List Char) (hg : g ≠ []) (hall : g.all isDigitC = true) :
    groupDot (g ++ '.' :: r) = some r := by
  unfold groupDot
  rw [plusRun_eq_some isDigitC g ('.' :: r) hg hall (Or.inr ⟨'.', r, rfl, by decide⟩)]
  simp

theorem groupDot_some_spec (l r : List Char) (h : groupDot l = some r) :
    ∃ g, g ≠ [] ∧ g.all isDigitC = true ∧ l = g ++ '.' :: r := by
  unfold groupDot at h
  cases hp : plusRun isDigitC l with
  | none =>
    simp only [hp] at h
    exact absurd h (by simp)
  | some r0 =>
    simp only [hp] at h
    obtain ⟨g, hg, hall, hl⟩ := plusRun_some_spec isDigitC l r0 hp
    cases r0 with
    | nil => exact absurd h (by simp)
    | cons c0 cs0 =>
      by_cases hc0 : c0 = '.'
      · subst hc0
        have h2 : some cs0 = some r := by simpa using h
        injection h2 with h3
        exact ⟨g, hg, hall, by rw [hl, h3]⟩
      · have h2 : (if c0 = '.' then some cs0 else none) = some r := h
        rw [if_neg hc0] at h2
        exact absurd h2 (by simp)

theorem groupDots_eq_some (n : Nat) :
    ∀ (gs : List (List Char)) (r : List Char), gs.length = n →
      (∀ g ∈ gs, g ≠ [] ∧ g.all isDigitC = true) →
      groupDots n (gs.foldr (fun g acc => g ++ '.' :: acc) r) = some r := by
  induction n with
  | zero =>
    intro gs r hlen _
    rw [List.length_eq_zero.mp hlen]
    rfl
  | succ n ih =>
    intro gs r hlen hall
    cases gs with
    | nil => simp at hlen
    | cons g gs2 =>
      have hstep : groupDot (g ++ '.' :: gs2.foldr (fun g acc => g ++ '.' :: acc) r) =
          some (gs2.foldr (fun g acc => g ++ '.' :: acc) r) :=
        groupDot_eq_some _ _ (hall g (by simp)).1 (hall g (by simp)).2
      simp only [List.foldr_cons, groupDots, hstep]
      exact ih gs2 r (by simpa using hlen) (fun g2 hg2 => hall g2 (List.mem_cons_of_mem g hg2))

theorem groupDots_some_spec (n : Nat) :
    ∀ (l r : List Char), groupDots n l = some r →
      ∃ gs : List (List Char), gs.length = n ∧
        (∀ g ∈ gs, g ≠ [] ∧ g.all isDigitC = true) ∧
        l = gs.foldr (fun g acc => g ++ '.' :: acc) r := by
  induction n with
  | zero =>
    intro l r h
    injection h with h2
    refine ⟨[], rfl, by simp, ?_⟩
    rw [h2]
    rfl
  | succ n ih =>
    intro l r h
    simp only [groupDots] at h
    cases hgd : groupDot l with
    | none =>
      simp only [hgd] at h
      exact absurd h (by simp)
    | some r1 =>
      simp only [hgd] at h
      obtain ⟨g, hg, hall, hl⟩ := groupDot_some_spec l r1 hgd
      obtain ⟨gs, hlen, hallgs, hdec⟩ := ih r1 r h
      refine ⟨g :: gs, by simp [hlen], ?_, ?_⟩
      · intro g2 hg2
        rcases List.mem_cons.mp hg2 with rfl | hm
        · exact ⟨hg, hall⟩
        · exact hallgs g2 hm
      · rw [hl, hdec]
        simp [List.foldr_cons]

theorem atLineEnd_iff (r : List Char) : atLineEnd r = true ↔ r = [] ∨ r = ['\n'] := by
  unfold atLineEnd
  rw [Bool.or_eq_true, List.isEmpty_iff]
  constructor
  · rintro (h1 | h2)
    · exact Or.inl h1
    · exact Or.inr (by simpa using h2)
  · rintro (rfl | rfl)
    · exact Or.inl rfl
    · exact Or.inr (by simp)

theorem nlPart_digit_break (nl : Bool) :
    nlPart nl = [] ∨ ∃ c cs, nlPart nl = c :: cs ∧ isDigitC c = false := by
  cases nl with
  | true => exact Or.inr ⟨'\n', [], by simp [nlPart], by decide⟩
  | false => exact Or.inl (by simp [nlPart])

theorem nlPart_word_break (nl : Bool) :
    nlPart nl = [] ∨ ∃ c cs, nlPart nl = c :: cs ∧ isWordC c = false := by
  cases nl with
  | true => exact Or.inr ⟨'\n', [], by simp [nlPart], by decide⟩
  | false => exact Or.inl (by simp [nlPart])

theorem atLineEnd_nlPart (nl : Bool) : atLineEnd (nlPart nl) = true := by
  cases nl <;> decide

theorem tsTail_eq_true (g : List Char) (ext : Option (List Char)) (nl : Bool)
    (hg : g ≠ []) (hall : g.all isDigitC = true)
    (hext : ∀ e, ext = some e → e ≠ [] ∧ e.all isWordC = true) :
    tsTail (g ++ extPart ext ++ nlPart nl) = true := by
  cases ext with
  | none =>
    have hrun : plusRun isDigitC (g ++ extPart none ++ nlPart nl) = some (nlPart nl) := by
      rw [show extPart none = [] from rfl, List.append_nil]
      exact plusRun_eq_some isDigitC g _ hg hall (nlPart_digit_break nl)
    unfold tsTail
    rw [hrun]
    simp [atLineEnd_nlPart nl]
  | some e =>
    obtain ⟨he, hallw⟩ := hext e rfl
    have hassoc : g ++ extPart (some e) ++ nlPart nl = g ++ ('.' :: (e ++ nlPart nl)) := by
      rw [show extPart (some e) = '.' :: e from rfl]
      simp [List.append_assoc]
    have hrun : plusRun isDigitC (g ++ ('.' :: (e ++ nlPart nl))) =
        some ('.' :: (e ++ nlPart nl)) :=
      plusRun_eq_some isDigitC g _ hg hall (Or.inr ⟨'.', _, rfl, by decide⟩)
    have hrunw : plusRun isWordC (e ++ nlPart nl) = some (nlPart nl) :=
      plusRun_eq_some isWordC e _ he hallw (nlPart_word_break nl)
    unfold tsTail
    rw [hassoc, hrun]
    simp only [hrunw, if_pos rfl, atLineEnd_nlPart nl]
    simp

theorem tsTail_spec (l : List Char) (h : tsTail l = true) :
    ∃ (g : List Char) (ext : Option (List Char)) (nl : Bool),
      g ≠ [] ∧ g.all isDigitC = true ∧
      (∀ e, ext = some e → e ≠ [] ∧ e.all isWordC = true) ∧
      l = g ++ extPart ext ++ nlPart nl := by
  unfold tsTail at h
  cases hp : plusRun isDigitC l with
  | none =>
    simp only [hp] at h
    exact absurd h (by simp)
  | some r =>
    simp only [hp] at h
    obtain ⟨g, hg, hall, hl⟩ := plusRun_some_spec isDigitC l r hp
    rw [Bool.or_eq_true] at h
    rcases h with hend | hmatch
    · rcases (atLineEnd_iff r).mp hend with rfl | rfl
      · refine ⟨g, none, false, hg, hall, ?_, ?_⟩
        · intro e he
          cases he
        · rw [hl]
          simp [extPart, nlPart]
      · refine ⟨g, none, true, hg, hall, ?_, ?_⟩
        · intro e he
          cases he
        · rw [hl]
          simp [extPart, nlPart]
    · cases r with
      | nil => simp at hmatch
      | cons c r2 =>
        by_cases hc : c = '.'
        · subst hc
          have hm2 : (match plusRun isWordC r2 with
              | none => false
              | some r3 => atLineEnd r3) = true := by
            simpa using hmatch
          cases hw : plusRun isWordC r2 with
          | none =>
            simp only [hw] at hm2
            exact absurd hm2 (by simp)
          | some r3 =>
            simp only [hw] at hm2
            obtain ⟨e, he, hallw, hr2⟩ := plusRun_some_spec isWordC r2 r3 hw
            rcases (atLineEnd_iff r3).mp hm2 with rfl | rfl
            · refine ⟨g, some e, false, hg, hall, ?_, ?_⟩
              · intro e2 he2
                injection he2 with he3
                subst he3
                exact ⟨he, hallw⟩
              · rw [hl, hr2]
                simp [extPart, nlPart]
            · refine ⟨g, some e, true, hg, hall, ?_, ?_⟩
              · intro e2 he2
                injection he2 with he3
                subst he3
                exact ⟨he, hallw⟩
              · rw [hl, hr2]
                simp [extPart, nlPart]
        · have h3 : (if c = '.' then
              (match plusRun isWordC r2 with
               | none => false
               | some r3 => atLineEnd r3) else false) = true := hmatch
          rw [if_neg hc] at h3
          exact absurd h3 (by simp)

theorem joinGroups_concat (gs : List (List Char)) (g : List Char) :
    joinGroups (gs ++ [g]) = gs.foldr (fun x acc => x ++ '.' :: acc) g := by
  induction gs with
  | nil => rfl
  | cons g0 gs2 ih =>
    have hne : gs2 ++ [g] ≠ [] := by simp
    cases hgs : gs2 ++ [g] with
    | nil => exact absurd hgs hne
    | cons y ys =>
      rw [show (g0 :: gs2) ++ [g] = g0 :: (gs2 ++ [g]) from rfl, hgs]
      rw [show joinGroups (g0 :: y :: ys) = g0 ++ '.' :: joinGroups (y :: ys) from rfl]
      rw [← hgs, ih]
      simp [List.foldr_cons]

theorem foldr_append_right (gs : List (List Char)) (b X : List Char) :
    gs.foldr (fun x acc => x ++ '.' :: acc) (b ++ X) =
      (gs.foldr (fun x acc => x ++ '.' :: acc) b) ++ X := by
  induction gs with
  | nil => rfl
  | cons g0 gs2 ih => simp [List.foldr_cons, ih, List.append_assoc]

theorem groupDots_tsTail_shape (n : Nat) (l : List Char) (r : List Char)
    (hgd : groupDots n l = some r) (htt : tsTail r = true) :
    ∃ (gs : List (List Char)) (ext : Option (List Char)) (nl : Bool),
      gs.length = n + 1 ∧ (∀ g ∈ gs, g ≠ [] ∧ g.all isDigitC = true) ∧
      (∀ e, ext = some e → e ≠ [] ∧ e.all isWordC = true) ∧
      l = joinGroups gs ++ extPart ext ++ nlPart nl := by
  obtain ⟨gs, hlen, hallgs, hdec⟩ := groupDots_some_spec n l r hgd
  obtain ⟨g, ext, nl, hg, hall, hext, hr⟩ := tsTail_spec r htt
  refine ⟨gs ++ [g], ext, nl, by simp [hlen], ?_, hext, ?_⟩
  · intro g2 hg2
    rcases List.mem_append.mp hg2 with hm | hm
    · exact hallgs g2 hm
    · rw [List.mem_singleton] at hm
      subst hm
      exact ⟨hg, hall⟩
  · rw [hdec, hr, joinGroups_concat, ← foldr_append_right, ← foldr_append_right]

theorem shape_groupDots_tsTail (n : Nat) (l : List Char)
    (gs : List (List Char)) (ext : Option (List Char)) (nl : Bool)
    (hlen : gs.length = n + 1) (hgs : ∀ g ∈ gs, g ≠ [] ∧ g.all isDigitC = true)
    (hext : ∀ e, ext = some e → e ≠ [] ∧ e.all isWordC = true)
    (hl : l = joinGroups gs ++ extPart ext ++ nlPart nl) :
    ∃ r, groupDots n l = some r ∧ tsTail r = true := by
  rcases List.eq_nil_or_concat gs with rfl | ⟨gs2, g, hcat⟩
  · simp at hlen
  · rw [List.concat_eq_append] at hcat
    subst hcat
    have hlen2 : gs2.length = n := by
      simp only [List.length_append, List.length_cons, List.length_nil] at hlen
      omega
    have hgmem : g ∈ gs2 ++ [g] := by simp
    refine ⟨g ++ extPart ext ++ nlPart nl, ?_, ?_⟩
    · have hldec : l = gs2.foldr (fun x acc => x ++ '.' :: acc)
          (g ++ extPart ext ++ nlPart nl) := by
        rw [hl, joinGroups_concat, ← foldr_append_right, ← foldr_append_right]
      rw [hldec]
      exact groupDots_eq_some n gs2 _ hlen2
        (fun g2 hg2 => hgs g2 (List.mem_append.mpr (Or.inl hg2)))
    · exact tsTail_eq_true g ext nl (hgs g hgmem).1 (hgs g hgmem).2 hext

/-- C6 amended: `is_timestamp_file` accepts exactly the names of 8 or 9
dot-separated nonempty digit groups, optionally followed by one
dot-extension of word characters (letter, digit or underscore), with the one
trailing newline the end anchor of the source pattern tolerates; because the
extension may itself be all digits, a name of ten all-digit groups is
accepted, read as nine groups plus a numeric extension. -/
theorem C6_amended_shape (s : String) :
    is_timestamp_file s = true ↔ timestampShape s.data := by
  unfold is_timestamp_file timestampShape
  rw [Bool.or_eq_true]
  constructor
  · rintro (h8 | h7)
    · cases hgd : groupDots 8 s.data with
      | none =>
        rw [hgd] at h8
        exact absurd h8 (by simp)
      | some r =>
        rw [hgd] at h8
        obtain ⟨gs, ext, nl, hlen, h1, h2, h3⟩ := groupDots_tsTail_shape 8 s.data r hgd h8
        exact ⟨gs, ext, nl, Or.inr hlen, h1, h2, h3⟩
    · cases hgd : groupDots 7 s.data with
      | none =>
        rw [hgd] at h7
        exact absurd h7 (by simp)
      | some r =>
        rw [hgd] at h7
        obtain ⟨gs, ext, nl, hlen, h1, h2, h3⟩ := groupDots_tsTail_shape 7 s.data r hgd h7
        exact ⟨gs, ext, nl, Or.inl hlen, h1, h2, h3⟩
  · rintro ⟨gs, ext, nl, hlen, hgs, hext, hl⟩
    rcases hlen with h8len | h9len
    · obtain ⟨r, hgd, htt⟩ :=
        shape_groupDots_tsTail 7 s.data gs ext nl (by omega) hgs hext hl
      refine Or.inr ?_
      rw [hgd]
      exact htt
    · obtain ⟨r, hgd, htt⟩ :=
        shape_groupDots_tsTail 8 s.data gs ext nl (by omega) hgs hext hl
      refine Or.inl ?_
      rw [hgd]
      exact htt

end DriftDetector
